import Mathlib

/-!
Shallow embedding of the `StateStore` module (src: `stateStore.js`) of the
Registrering backend: the document data model, the tolerant normalisers, the
queued mutating operations and the persistence behaviour, together with
theorems checking the natural-language specification against this code.

Conventions of the embedding:
- JavaScript runtime values that flow through the normalisers are modelled by
  `JVal` (string / boolean / number / null / undefined); a JSON object that may
  fail the `typeof x === 'object'` guard is modelled as an `Option` of a record
  of `JVal` fields, `none` standing for a non-object value.
- `crypto.randomUUID()` is modelled by an explicit generator `gen : Nat → String`
  together with a counter threaded through every computation: the k-th call of
  the process returns `gen k`.  Freshness assumptions on `gen` (injectivity,
  avoidance of ids present in the input) appear as hypotheses where a theorem
  needs them; they are the idealisation of a v4 UUID source.
- `deepClone` (`JSON.parse(JSON.stringify(x))`) is the identity on document
  values, so reads return the value itself.
- `new Date(a) > new Date(b)` is modelled for calendar-date strings
  `YYYY-MM-DD` (the format the application exchanges); strings outside that
  format parse to an invalid date, and any comparison against an invalid date
  is false, exactly as `NaN` comparisons are false in JavaScript.
- `await this.persist()` either succeeds or throws; the outcome is an explicit
  boolean argument `persistOk` of each operation.
-/

namespace Registrering

/-- A JavaScript runtime value as it can appear in a JSON request payload or in
the persisted file. -/
inductive JVal where
  | undef
  | jnull
  | jstr (s : String)
  | jbool (b : Bool)
  | jnum (n : Int)
deriving Repr, DecidableEq

/-- JavaScript truthiness, `Boolean(v)`: empty string, `0`, `null`,
`undefined` are falsy. -/
def JVal.truthy : JVal → Bool
  | .undef => false
  | .jnull => false
  | .jstr s => s ≠ ""
  | .jbool b => b
  | .jnum n => n ≠ 0

/-- The `typeof v === 'string'` test, returning the string when it passes. -/
def JVal.asString : JVal → Option String
  | .jstr s => some s
  | _ => none

/-- Canonical employee record, the shape produced by `normaliseEmployee`. -/
structure Employee where
  id : String
  name : String
  department : String
  role : String
  photo : String
  isCheckedIn : Bool
deriving Repr, DecidableEq

/-- Canonical branding record. -/
structure Branding where
  logo : String
deriving Repr, DecidableEq

/-- Canonical absence record; the JavaScript fields `from`/`to` are named
`fromDate`/`toDate` because `from` is a Lean keyword. -/
structure Absence where
  id : String
  employeeId : String
  fromDate : String
  toDate : String
  reason : String
deriving Repr, DecidableEq

/-- The single root aggregate held by the store and persisted as one JSON
file. -/
structure Doc where
  branding : Branding
  employees : List Employee
  absences : List Absence
deriving Repr, DecidableEq

/-- Raw (unvalidated) employee object: each field is an arbitrary JavaScript
value, `JVal.undef` standing for an absent key. -/
structure RawEmployee where
  id : JVal
  name : JVal
  department : JVal
  role : JVal
  photo : JVal
  isCheckedIn : JVal
deriving Repr, DecidableEq

/-- Raw absence object. -/
structure RawAbsence where
  id : JVal
  employeeId : JVal
  fromDate : JVal
  toDate : JVal
  reason : JVal
deriving Repr, DecidableEq

/-- Raw branding object. -/
structure RawBranding where
  logo : JVal
deriving Repr, DecidableEq

/-- Raw persisted state: `none` components model a key whose value fails the
`typeof === 'object'` / `Array.isArray` guard; list elements that are not
objects are `none`. -/
structure RawState where
  branding : Option RawBranding
  employees : Option (List (Option RawEmployee))
  absences : Option (List (Option RawAbsence))
deriving Repr, DecidableEq

/-- `DEFAULT_STATE` from the source: the built-in seed document. -/
def DEFAULT_STATE : Doc :=
  { branding := { logo := "" }
    employees :=
      [ { id := "amalie-korvig", name := "Amalie Korvig", department := "Administration",
          role := "Receptionist", photo := "", isCheckedIn := true }
      , { id := "jonas-lindholm", name := "Jonas Lindholm", department := "Administration",
          role := "HR-partner", photo := "", isCheckedIn := false }
      , { id := "freja-holm", name := "Freja Holm", department := "Design",
          role := "Lead Designer", photo := "", isCheckedIn := true }
      , { id := "mathias-hagen", name := "Mathias Hagen", department := "Design",
          role := "UX Designer", photo := "", isCheckedIn := false }
      , { id := "henrik-nord", name := "Henrik Nord", department := "Salg",
          role := "Salgschef", photo := "", isCheckedIn := true }
      , { id := "sofie-iversen", name := "Sofie Iversen", department := "Salg",
          role := "Account Manager", photo := "", isCheckedIn := false } ]
    absences := [] }

/-- Two-digit decimal read of two digit characters. -/
def twoDigits (a b : Char) : Nat :=
  (a.toNat - 48) * 10 + (b.toNat - 48)

/-- Gregorian leap-year test. -/
def isLeapYear (y : Nat) : Bool :=
  (y % 4 == 0 && y % 100 != 0) || y % 400 == 0

/-- Days in a month of a given year. -/
def daysInMonth (y m : Nat) : Nat :=
  if m == 2 then (if isLeapYear y then 29 else 28)
  else if m == 4 || m == 6 || m == 9 || m == 11 then 30
  else 31

/-- Parse a calendar-date string `YYYY-MM-DD` to a key that is strictly
monotone in the date it denotes; `none` models the invalid date (`NaN`
timestamp) JavaScript produces for strings outside this format. -/
def parseIsoDate (s : String) : Option Nat :=
  match s.toList with
  | [y1, y2, y3, y4, c1, m1, m2, c2, d1, d2] =>
    if y1.isDigit && y2.isDigit && y3.isDigit && y4.isDigit && c1 == '-'
        && m1.isDigit && m2.isDigit && c2 == '-' && d1.isDigit && d2.isDigit then
      let y := twoDigits y1 y2 * 100 + twoDigits y3 y4
      let m := twoDigits m1 m2
      let d := twoDigits d1 d2
      if 1 ≤ m && m ≤ 12 && 1 ≤ d && d ≤ daysInMonth y m then
        some (y * 10000 + m * 100 + d)
      else none
    else none
  | _ => none

/-- Models `new Date(a) > new Date(b)`: comparisons involving an invalid date
are false. -/
def jsDateGt (a b : String) : Bool :=
  match parseIsoDate a, parseIsoDate b with
  | some x, some y => y < x
  | _, _ => false

/-- `String.prototype.trim`: strip leading and trailing whitespace.  Defined
structurally over the character list so that concrete instances reduce in the
kernel (`String.trim` of core is defined by well-founded recursion). -/
def jsTrim (s : String) : String :=
  ⟨((s.data.dropWhile Char.isWhitespace).reverse.dropWhile Char.isWhitespace).reverse⟩

/-- `typeof v === 'string' && v.trim() ? v.trim() : fallback`. -/
def trimmedOr (v : JVal) (fallback : String) : String :=
  match v with
  | .jstr s => if jsTrim s = "" then fallback else jsTrim s
  | _ => fallback

/-- `typeof v === 'string' ? v.trim() : ''`. -/
def trimOrEmpty (v : JVal) : String :=
  match v with
  | .jstr s => jsTrim s
  | _ => ""

/-- `normaliseEmployee` from the source, with the `crypto.randomUUID()` calls
made explicit: returns the employee together with the advanced counter. -/
def normaliseEmployee (gen : Nat → String) (c : Nat) (raw : Option RawEmployee) :
    Employee × Nat :=
  match raw with
  | none =>
      ({ id := gen c, name := "Ukendt medarbejder", department := "Øvrige",
         role := "", photo := "", isCheckedIn := false }, c + 1)
  | some e =>
      let name := trimmedOr e.name "Ukendt medarbejder"
      let department := trimmedOr e.department "Øvrige"
      let role := trimOrEmpty e.role
      let photo := trimOrEmpty e.photo
      let idc : String × Nat :=
        match e.id with
        | .jstr s => if jsTrim s = "" then (gen c, c + 1) else (jsTrim s, c)
        | _ => (gen c, c + 1)
      ({ id := idc.1, name := name, department := department, role := role,
         photo := photo, isCheckedIn := e.isCheckedIn.truthy }, idc.2)

/-- The `while (taken.has(candidate)) candidate = crypto.randomUUID();` loop.
The JavaScript loop has no bound; the model carries explicit fuel and is run
with fuel `taken.length + 1`, which suffices whenever the generator is
injective and avoids the ids of the input (the idealisation of
`crypto.randomUUID`). -/
def pickFresh (gen : Nat → String) : Nat → String → List String → Nat → String × Nat
  | c, cand, _, 0 => (cand, c)
  | c, cand, taken, fuel + 1 =>
    if cand ∈ taken then pickFresh gen (c + 1) (gen c) taken fuel else (cand, c)

/-- The candidate `normalised.id || crypto.randomUUID()` of
`normaliseEmployeeList`, with the counter it leaves. -/
def listStart (gen : Nat → String) (nc : Employee × Nat) : String × Nat :=
  if nc.1.id = "" then (gen nc.2, nc.2 + 1) else (nc.1.id, nc.2)

/-- One step of `normaliseEmployeeList`: normalise the record, compute
`normalised.id || crypto.randomUUID()`, then spin the collision loop; the
caller adds the chosen id to the taken set. -/
def normaliseEmployeeListStep (gen : Nat → String) (c : Nat) (taken : List String)
    (raw : Option RawEmployee) : Employee × Nat :=
  let nc := normaliseEmployee gen c raw
  let fresh := pickFresh gen (listStart gen nc).2 (listStart gen nc).1 taken
    (taken.length + 1)
  ({ nc.1 with id := fresh.1 }, fresh.2)

/-- The normalised id a raw employee entry carries, when it has one: the
trimmed `id` field if it is a non-blank string. -/
def rawEmpId (raw : Option RawEmployee) : Option String :=
  match raw with
  | some e =>
    match e.id with
    | .jstr s => if jsTrim s = "" then none else some (jsTrim s)
    | _ => none
  | none => none

/-- All ids carried by a raw employee list. -/
def rawIdsOf (raws : List (Option RawEmployee)) : List String :=
  raws.filterMap rawEmpId

/-- `s` was produced by the generator at some index below `c`. -/
def genBefore (gen : Nat → String) (c : Nat) (s : String) : Prop :=
  ∃ k, k < c ∧ gen k = s

/-- Body of `normaliseEmployeeList`: maps `normaliseEmployee` over the list
while threading the `taken` id set and regenerating colliding ids. -/
def normaliseEmployeeListGo (gen : Nat → String) :
    Nat → List String → List (Option RawEmployee) → List Employee × Nat
  | c, _, [] => ([], c)
  | c, taken, raw :: rest =>
    let nc := normaliseEmployeeListStep gen c taken raw
    let out := normaliseEmployeeListGo gen nc.2 (nc.1.id :: taken) rest
    (nc.1 :: out.1, out.2)

/-- `normaliseEmployeeList` from the source. -/
def normaliseEmployeeList (gen : Nat → String) (c : Nat)
    (raws : List (Option RawEmployee)) : List Employee × Nat :=
  normaliseEmployeeListGo gen c [] raws

/-- `normaliseAbsence` from the source; `validIds = none` models the call
without the second argument (as `StateStore.addAbsence` does), in which case
the `validIds.has(employeeId)` membership test is skipped. -/
def normaliseAbsence (gen : Nat → String) (c : Nat) (raw : Option RawAbsence)
    (validIds : Option (List String)) : Option Absence × Nat :=
  match raw with
  | none => (none, c)
  | some a =>
    match a.employeeId with
    | .jstr eid =>
      if eid = "" then (none, c)
      else if (match validIds with
               | some ids => decide (eid ∉ ids)
               | none => false) then (none, c)
      else
        match a.fromDate.asString, a.toDate.asString with
        | some f, some t =>
          if f = "" ∨ t = "" then (none, c)
          else if jsDateGt f t then (none, c)
          else
            let reason := match a.reason with | .jstr s => s | _ => "other"
            let idc : String × Nat :=
              match a.id with
              | .jstr s => if jsTrim s = "" then (gen c, c + 1) else (jsTrim s, c)
              | _ => (gen c, c + 1)
            (some { id := idc.1, employeeId := eid, fromDate := f, toDate := t,
                    reason := reason }, idc.2)
        | _, _ => (none, c)
    | _ => (none, c)

/-- `normaliseAbsenceList` from the source: normalise each entry against the
valid employee ids and drop the rejected ones. -/
def normaliseAbsenceList (gen : Nat → String) :
    Nat → List (Option RawAbsence) → List String → List Absence × Nat
  | c, [], _ => ([], c)
  | c, raw :: rest, validIds =>
    let ac := normaliseAbsence gen c raw (some validIds)
    let out := normaliseAbsenceList gen ac.2 rest validIds
    (match ac.1 with
     | some a => a :: out.1
     | none => out.1, out.2)

/-- `normaliseBranding` from the source. -/
def normaliseBranding (raw : Option RawBranding) : Branding :=
  match raw with
  | none => { logo := "" }
  | some b => { logo := match b.logo with | .jstr s => s | _ => "" }

/-- `normaliseState` from the source: `none` models a root value failing the
`typeof raw === 'object'` guard.  An empty (or non-array) employees list is
replaced by the seed employees of `DEFAULT_STATE`. -/
def normaliseState (gen : Nat → String) (c : Nat) (raw : Option RawState) :
    Doc × Nat :=
  match raw with
  | none => (DEFAULT_STATE, c)
  | some r =>
    let branding := normaliseBranding r.branding
    let empc : List Employee × Nat :=
      match r.employees with
      | some es => if es = [] then (DEFAULT_STATE.employees, c)
                   else normaliseEmployeeList gen c es
      | none => (DEFAULT_STATE.employees, c)
    let validIds := empc.1.map Employee.id
    let absc : List Absence × Nat :=
      match r.absences with
      | some l => normaliseAbsenceList gen empc.2 l validIds
      | none => ([], empc.2)
    ({ branding := branding, employees := empc.1, absences := absc.1 }, absc.2)

/-- The error kinds of the design: `'Navn og titel er påkrævet'` and
`'Ugyldige fraværsoplysninger'` are `validation`, `'Medarbejder ikke fundet'`
and `'Fravær ikke fundet'` are `notFound`, and a rejection of the
`fs.writeFile` inside `persist` is `persistence`. -/
inductive Err where
  | validation
  | notFound
  | persistence
deriving Repr, DecidableEq

/-- The resolved value of a store operation. -/
inductive OpResult where
  | branding (state : Doc) (previousLogo : String)
  | employee (e : Employee)
  | absence (a : Absence)
deriving Repr, DecidableEq

deriving instance DecidableEq for Except

/-- Partial update payload of `updateEmployee`: `none` models a key absent
from the object (so not copied by the `{...employee, ...updates}` spread). -/
structure RawUpdates where
  name : Option JVal
  department : Option JVal
  role : Option JVal
  photo : Option JVal
  isCheckedIn : Option JVal
deriving Repr, DecidableEq

/-- The object `{...employee, ...updates, id: employee.id, isCheckedIn: ...}`
built inside `updateEmployee` before re-normalising. -/
def mergedRaw (e : Employee) (u : RawUpdates) : RawEmployee :=
  { id := .jstr e.id
    name := u.name.getD (.jstr e.name)
    department := u.department.getD (.jstr e.department)
    role := u.role.getD (.jstr e.role)
    photo := u.photo.getD (.jstr e.photo)
    isCheckedIn := .jbool (match u.isCheckedIn with
      | some (.jbool b) => b
      | _ => e.isCheckedIn) }

/-- The `employees.map` inside `updateEmployee`: every matching record is
re-normalised (threading the counter) and `updatedEmployee` ends as the last
match. -/
def updateEmpGo (gen : Nat → String) (id : String) (u : RawUpdates) :
    List Employee → Nat → List Employee × Option Employee × Nat
  | [], c => ([], none, c)
  | e :: rest, c =>
    if e.id = id then
      let ne := normaliseEmployee gen c (some (mergedRaw e u))
      let r := updateEmpGo gen id u rest ne.2
      (ne.1 :: r.1, some (r.2.1.getD ne.1), r.2.2)
    else
      let r := updateEmpGo gen id u rest c
      (e :: r.1, r.2.1, r.2.2)

/-- The `employees.map` inside `setEmployeeStatus`. -/
def setStatusGo (id : String) (b : Bool) : List Employee → List Employee × Option Employee
  | [] => ([], none)
  | e :: rest =>
    if e.id = id then
      let ne := { e with isCheckedIn := b }
      let r := setStatusGo id b rest
      (ne :: r.1, some (r.2.getD ne))
    else
      let r := setStatusGo id b rest
      (e :: r.1, r.2)

/-- The `employees.forEach` inside `removeEmployee`: keeps the non-matching
records, `removedEmployee` ends as the last match. -/
def removeEmpGo (id : String) : List Employee → List Employee × Option Employee
  | [] => ([], none)
  | e :: rest =>
    let r := removeEmpGo id rest
    if e.id = id then (r.1, some (r.2.getD e)) else (e :: r.1, r.2)

/-- The `absences.filter` inside `removeAbsence`: keeps the non-matching
records, `removed` ends as the last match. -/
def removeAbsGo (id : String) : List Absence → List Absence × Option Absence
  | [] => ([], none)
  | a :: rest =>
    let r := removeAbsGo id rest
    if a.id = id then (r.1, some (r.2.getD a)) else (a :: r.1, r.2)

/-- The mutable fields of a `StateStore` instance that the queued operations
touch: the canonical document and the UUID counter. -/
structure StoreSt where
  doc : Doc
  ctr : Nat
deriving Repr, DecidableEq

/-- `getState()`: `deepClone` is the identity on document values, so the read
returns the committed document itself. -/
def getState (st : StoreSt) : Doc :=
  st.doc

/-- A mutating store operation together with its request payload. -/
inductive Op where
  | setBrandingLogo (logoPath : String)
  | removeBrandingLogo
  | addEmployee (payload : RawEmployee)
  | updateEmployee (id : String) (updates : RawUpdates)
  | removeEmployee (id : String)
  | setEmployeeStatus (id : String) (isCheckedIn : JVal)
  | addAbsence (payload : RawAbsence)
  | removeAbsence (id : String)
deriving Repr, DecidableEq

/-- The body of one queued unit of work: the task the corresponding
`StateStore` method passes to `enqueue`, with the outcome of its
`await this.persist()` made explicit as `persistOk`.  Mutations of
`this.state` that the source performs before a `throw` are preserved as
state changes of the error outcome. -/
def applyOp (gen : Nat → String) (persistOk : Bool) (op : Op) (st : StoreSt) :
    Except Err OpResult × StoreSt :=
  match op with
  | .setBrandingLogo logoPath =>
    let previousLogo := st.doc.branding.logo
    let doc := { st.doc with branding := { st.doc.branding with logo := logoPath } }
    let st := { st with doc := doc }
    if persistOk then (.ok (.branding (getState st) previousLogo), st)
    else (.error .persistence, st)
  | .removeBrandingLogo =>
    let previousLogo := st.doc.branding.logo
    let doc := { st.doc with branding := { st.doc.branding with logo := "" } }
    let st := { st with doc := doc }
    if persistOk then (.ok (.branding (getState st) previousLogo), st)
    else (.error .persistence, st)
  | .addEmployee payload =>
    let idc : JVal × Nat :=
      if payload.id.truthy then (payload.id, st.ctr) else (.jstr (gen st.ctr), st.ctr + 1)
    let ec := normaliseEmployee gen idc.2
      (some { payload with id := idc.1, isCheckedIn := .jbool payload.isCheckedIn.truthy })
    let employee := ec.1
    if employee.name = "" ∨ employee.role = "" then
      (.error .validation, { st with ctr := ec.2 })
    else
      let st := { doc := { st.doc with employees := st.doc.employees ++ [employee] },
                  ctr := ec.2 }
      if persistOk then (.ok (.employee employee), st) else (.error .persistence, st)
  | .updateEmployee id updates =>
    let r := updateEmpGo gen id updates st.doc.employees st.ctr
    let st := { doc := { st.doc with employees := r.1 }, ctr := r.2.2 }
    match r.2.1 with
    | none => (.error .notFound, st)
    | some e =>
      if persistOk then (.ok (.employee e), st) else (.error .persistence, st)
  | .removeEmployee id =>
    let r := removeEmpGo id st.doc.employees
    match r.2 with
    | none => (.error .notFound, st)
    | some removed =>
      let st := { st with doc := { st.doc with
        employees := r.1,
        absences := st.doc.absences.filter (fun a => a.employeeId ≠ id) } }
      if persistOk then (.ok (.employee removed), st) else (.error .persistence, st)
  | .setEmployeeStatus id v =>
    let r := setStatusGo id v.truthy st.doc.employees
    let st := { st with doc := { st.doc with employees := r.1 } }
    match r.2 with
    | none => (.error .notFound, st)
    | some e =>
      if persistOk then (.ok (.employee e), st) else (.error .persistence, st)
  | .addAbsence payload =>
    let idc : JVal × Nat :=
      if payload.id.truthy then (payload.id, st.ctr) else (.jstr (gen st.ctr), st.ctr + 1)
    let ac := normaliseAbsence gen idc.2 (some { payload with id := idc.1 }) none
    match ac.1 with
    | none => (.error .validation, { st with ctr := ac.2 })
    | some absence =>
      let filtered := st.doc.absences.filter (fun entry => entry.employeeId ≠ absence.employeeId)
      let st := { doc := { st.doc with absences := filtered ++ [absence] }, ctr := ac.2 }
      if persistOk then (.ok (.absence absence), st) else (.error .persistence, st)
  | .removeAbsence id =>
    let r := removeAbsGo id st.doc.absences
    match r.2 with
    | none => (.error .notFound, st)
    | some removed =>
      let st := { st with doc := { st.doc with absences := r.1 } }
      if persistOk then (.ok (.absence removed), st) else (.error .persistence, st)

/-- The promise chain built by `enqueue`: `base` is the initially resolved
`this.queue`, and each submission links a new unit onto the current tail. -/
inductive Chain where
  | base : Chain
  | link (prev : Chain) (op : Op) (persistOk : Bool) : Chain

/-- Submitting a list of operations in order: each submission replaces
`this.queue` by the new tail, exactly the `enqueue` reassignment. -/
def submitAll (ops : List (Op × Bool)) : Chain :=
  ops.foldl (fun ch ob => Chain.link ch ob.1 ob.2) Chain.base

/-- Execution of a chain on the single-threaded event loop: a linked unit runs
only after the whole previous chain has settled, and because the tail is
`run.then(() => undefined).catch(() => undefined)` it settles (never stays
rejected) whatever the unit's own outcome, so the next unit always runs.
Returns the final store state and every unit's own outcome in submission
order. -/
def execChain (gen : Nat → String) : Chain → StoreSt → StoreSt × List (Except Err OpResult)
  | .base, st => (st, [])
  | .link prev op pOk, st =>
    let r := execChain gen prev st
    let s := applyOp gen pOk op r.1
    (s.2, r.2 ++ [s.1])

/-- Modelled from the spec: applying the operations sequentially in submission
order, each fully completing before the next starts. -/
def runSequential (gen : Nat → String) :
    List (Op × Bool) → StoreSt → StoreSt × List (Except Err OpResult)
  | [], st => (st, [])
  | ob :: rest, st =>
    let s := applyOp gen ob.2 ob.1 st
    let r := runSequential gen rest s.2
    (r.1, s.1 :: r.2)

/-- Serialisation of a canonical document back to raw shape:
`JSON.parse` of the `JSON.stringify(state, null, 2)` text written by
`persist`, which is the identity on the document's values. -/
def docToRaw (d : Doc) : RawState :=
  { branding := some { logo := .jstr d.branding.logo }
    employees := some (d.employees.map (fun e => some
      { id := .jstr e.id, name := .jstr e.name, department := .jstr e.department,
        role := .jstr e.role, photo := .jstr e.photo,
        isCheckedIn := .jbool e.isCheckedIn }))
    absences := some (d.absences.map (fun a => some
      { id := .jstr a.id, employeeId := .jstr a.employeeId, fromDate := .jstr a.fromDate,
        toDate := .jstr a.toDate, reason := .jstr a.reason })) }

/-- `s` is its own trim. -/
def isTrimmed (s : String) : Bool :=
  jsTrim s == s

/-- An employee record of the shape `normaliseEmployee` produces (with a
well-behaved id): trimmed non-empty id, name and department, trimmed role and
photo. -/
def Employee.canonical (e : Employee) : Bool :=
  isTrimmed e.id && e.id ≠ "" && isTrimmed e.name && e.name ≠ ""
    && isTrimmed e.department && e.department ≠ "" && isTrimmed e.role && isTrimmed e.photo

/-- An absence record that `normaliseAbsenceList` keeps unchanged against the
given employee ids. -/
def Absence.canonicalFor (a : Absence) (ids : List String) : Bool :=
  isTrimmed a.id && a.id ≠ "" && a.employeeId ≠ "" && a.employeeId ∈ ids
    && a.fromDate ≠ "" && a.toDate ≠ "" && !jsDateGt a.fromDate a.toDate

/-- A valid canonical document: canonical employees with pairwise-distinct
ids, and absences the normaliser keeps. -/
def Doc.canonical (d : Doc) : Bool :=
  d.employees.all Employee.canonical
    && decide (d.employees.map Employee.id).Nodup
    && d.absences.all (fun a => a.canonicalFor (d.employees.map Employee.id))

/-- A concrete UUID generator used by witnesses: pairwise distinct outputs
disjoint from every id appearing in the examples. -/
def gen0 (n : Nat) : String :=
  "uuid-" ++ toString n

/-- A second concrete generator used by the C9 witness: pairwise-distinct
outputs (the length determines the index) disjoint from the example ids. -/
def genU (n : Nat) : String :=
  ⟨List.replicate n 'u'⟩

/-- A store freshly constructed over the built-in default document. -/
def st0 : StoreSt :=
  { doc := DEFAULT_STATE, ctr := 0 }

/-- The payload `{name:"", role:"X"}`. -/
def pEmptyName : RawEmployee :=
  { id := .undef, name := .jstr "", department := .undef, role := .jstr "X",
    photo := .undef, isCheckedIn := .undef }

/-- The payload `{name:"A", role:"B"}`. -/
def pAB : RawEmployee :=
  { id := .undef, name := .jstr "A", department := .undef, role := .jstr "B",
    photo := .undef, isCheckedIn := .undef }

/-- The partial update `{role: ""}`. -/
def updEmptyRole : RawUpdates :=
  { name := none, department := none, role := some (.jstr ""), photo := none,
    isCheckedIn := none }

/-- The first seed employee after an update blanking the role. -/
def amalieEmptyRole : Employee :=
  { id := "amalie-korvig", name := "Amalie Korvig", department := "Administration",
    role := "", photo := "", isCheckedIn := true }

/-- An absence payload whose `employeeId` refers to no employee of the default
document, with a well-formed date range. -/
def ghostAbs : RawAbsence :=
  { id := .undef, employeeId := .jstr "ghost", fromDate := .jstr "2024-01-01",
    toDate := .jstr "2024-01-02", reason := .undef }

/-- The absence payload of the spec example with `from > to`. -/
def badDatesAbs : RawAbsence :=
  { id := .undef, employeeId := .jstr "amalie-korvig", fromDate := .jstr "2024-02-01",
    toDate := .jstr "2024-01-01", reason := .undef }

/-- A valid canonical document whose employees list is empty. -/
def demptyDoc : Doc :=
  { branding := { logo := "" }, employees := [], absences := [] }

/-- A raw persisted state with one employee and two valid absences for that
same employee. -/
def rawDup : RawState :=
  { branding := none
    employees := some [some
      { id := .jstr "e1", name := .jstr "E One", department := .undef,
        role := .jstr "Dev", photo := .undef, isCheckedIn := .undef }]
    absences := some
      [ some { id := .jstr "a1", employeeId := .jstr "e1", fromDate := .jstr "2024-01-01",
               toDate := .jstr "2024-01-02", reason := .undef }
      , some { id := .jstr "a2", employeeId := .jstr "e1", fromDate := .jstr "2024-02-01",
               toDate := .jstr "2024-02-02", reason := .undef } ] }

/-- Two raw employee entries sharing the id `dup`. -/
def dupRaws : List (Option RawEmployee) :=
  [ some { id := .jstr "dup", name := .jstr "A", department := .undef, role := .jstr "r",
           photo := .undef, isCheckedIn := .undef }
  , some { id := .jstr "dup", name := .jstr "B", department := .undef, role := .jstr "r",
           photo := .undef, isCheckedIn := .undef } ]

/-- A concrete batch of submissions used by witnesses: a valid add, a failing
remove, and a status change, all with successful persistence. -/
def opsW : List (Op × Bool) :=
  [ (Op.addEmployee pAB, true)
  , (Op.removeEmployee "nobody", true)
  , (Op.setEmployeeStatus "amalie-korvig" (JVal.jbool false), true) ]

/-- A second absence payload for the first seed employee, with a fresh id. -/
def absAmalie2raw : RawAbsence :=
  { id := .jstr "a2", employeeId := .jstr "amalie-korvig", fromDate := .jstr "2024-03-01",
    toDate := .jstr "2024-03-02", reason := .undef }

/-- The normalised absence `absAmalie2raw` produces. -/
def absAmalie2 : Absence :=
  { id := "a2", employeeId := "amalie-korvig", fromDate := "2024-03-01",
    toDate := "2024-03-02", reason := "other" }

/-- The first seed employee of `DEFAULT_STATE`. -/
def amalie : Employee :=
  { id := "amalie-korvig", name := "Amalie Korvig", department := "Administration",
    role := "Receptionist", photo := "", isCheckedIn := true }

/-- The seed employees after the first. -/
def seedRest : List Employee :=
  DEFAULT_STATE.employees.drop 1

/-- A canonical absence for the first seed employee. -/
def absAmalie : Absence :=
  { id := "a1", employeeId := "amalie-korvig", fromDate := "2024-01-01",
    toDate := "2024-01-02", reason := "other" }

/-- The default store state extended with `absAmalie`. -/
def stWithAbs : StoreSt :=
  { doc := { DEFAULT_STATE with absences := [absAmalie] }, ctr := 0 }

/-- A generator output shaped like a UUID: already trimmed and non-empty.
`crypto.randomUUID()` outputs always satisfy this. -/
def uuidLike (s : String) : Bool :=
  isTrimmed s && s != ""

/-- The employee `updateEmployee` stores for a found canonical record: the
value of re-normalising the `{...employee, ...updates, id, isCheckedIn}`
merge (proved equal to that re-normalisation in
`normaliseEmployee_merged`). -/
def mergeUpdated (e : Employee) (u : RawUpdates) : Employee :=
  { id := e.id
    name := match u.name with
      | none => e.name
      | some v => trimmedOr v "Ukendt medarbejder"
    department := match u.department with
      | none => e.department
      | some v => trimmedOr v "Øvrige"
    role := match u.role with
      | none => e.role
      | some v => trimOrEmpty v
    photo := match u.photo with
      | none => e.photo
      | some v => trimOrEmpty v
    isCheckedIn := match u.isCheckedIn with
      | some (.jbool b) => b
      | _ => e.isCheckedIn }

/-- The condition under which `addAbsence` rejects a payload: `employeeId`
not a non-empty string, `from`/`to` not non-empty strings, or `from > to` as
dates.  Whether the `employeeId` refers to an existing employee plays no part
(`addAbsence` calls `normaliseAbsence` without `validIds`). -/
def absenceInvalid (p : RawAbsence) : Bool :=
  (match p.employeeId with | .jstr s => s == "" | _ => true)
    || (match p.fromDate with | .jstr s => s == "" | _ => true)
    || (match p.toDate with | .jstr s => s == "" | _ => true)
    || (match p.fromDate, p.toDate with
        | .jstr f, .jstr t => jsDateGt f t
        | _, _ => false)

/-! ### Helper lemmas about the list-walking bodies of the operations -/

theorem setStatusGo_not_mem (id : String) (b : Bool) (l : List Employee)
    (h : ∀ e ∈ l, e.id ≠ id) : setStatusGo id b l = (l, none) := by
  induction l with
  | nil => rfl
  | cons e rest ih =>
    have he : e.id ≠ id := h e (List.mem_cons_self e rest)
    simp only [setStatusGo, if_neg he, ih (fun x hx => h x (List.mem_cons_of_mem e hx))]

theorem setStatusGo_none (id : String) (b : Bool) (l : List Employee)
    (h : (setStatusGo id b l).2 = none) : setStatusGo id b l = (l, none) := by
  induction l with
  | nil => rfl
  | cons e rest ih =>
    by_cases he : e.id = id
    · simp only [setStatusGo, if_pos he] at h
      exact Option.noConfusion h
    · simp only [setStatusGo, if_neg he] at h ⊢
      simp only [ih h]

theorem setStatusGo_found (id : String) (b : Bool) (l₁ : List Employee) (e : Employee)
    (l₂ : List Employee) (he : e.id = id) (h₁ : ∀ x ∈ l₁, x.id ≠ id)
    (h₂ : ∀ x ∈ l₂, x.id ≠ id) :
    setStatusGo id b (l₁ ++ e :: l₂) =
      (l₁ ++ { e with isCheckedIn := b } :: l₂, some { e with isCheckedIn := b }) := by
  induction l₁ with
  | nil =>
    simp only [List.nil_append, setStatusGo, if_pos he, setStatusGo_not_mem id b l₂ h₂,
      Option.getD_none]
  | cons x rest ih =>
    have hx : x.id ≠ id := h₁ x (List.mem_cons_self x rest)
    simp only [List.cons_append, setStatusGo, List.append_eq, if_neg hx,
      ih (fun y hy => h₁ y (List.mem_cons_of_mem x hy))]

theorem removeEmpGo_not_mem (id : String) (l : List Employee)
    (h : ∀ e ∈ l, e.id ≠ id) : removeEmpGo id l = (l, none) := by
  induction l with
  | nil => rfl
  | cons e rest ih =>
    have he : e.id ≠ id := h e (List.mem_cons_self e rest)
    simp only [removeEmpGo, ih (fun x hx => h x (List.mem_cons_of_mem e hx)), if_neg he]

theorem removeEmpGo_found (id : String) (l₁ : List Employee) (e : Employee)
    (l₂ : List Employee) (he : e.id = id) (h₁ : ∀ x ∈ l₁, x.id ≠ id)
    (h₂ : ∀ x ∈ l₂, x.id ≠ id) :
    removeEmpGo id (l₁ ++ e :: l₂) = (l₁ ++ l₂, some e) := by
  induction l₁ with
  | nil =>
    simp only [List.nil_append, removeEmpGo, removeEmpGo_not_mem id l₂ h₂, if_pos he,
      Option.getD_none]
  | cons x rest ih =>
    have hx : x.id ≠ id := h₁ x (List.mem_cons_self x rest)
    simp only [List.cons_append, removeEmpGo, List.append_eq,
      ih (fun y hy => h₁ y (List.mem_cons_of_mem x hy)), if_neg hx]

theorem removeAbsGo_not_mem (id : String) (l : List Absence)
    (h : ∀ a ∈ l, a.id ≠ id) : removeAbsGo id l = (l, none) := by
  induction l with
  | nil => rfl
  | cons a rest ih =>
    have ha : a.id ≠ id := h a (List.mem_cons_self a rest)
    simp only [removeAbsGo, ih (fun x hx => h x (List.mem_cons_of_mem a hx)), if_neg ha]

theorem removeAbsGo_found (id : String) (l₁ : List Absence) (a : Absence)
    (l₂ : List Absence) (ha : a.id = id) (h₁ : ∀ x ∈ l₁, x.id ≠ id)
    (h₂ : ∀ x ∈ l₂, x.id ≠ id) :
    removeAbsGo id (l₁ ++ a :: l₂) = (l₁ ++ l₂, some a) := by
  induction l₁ with
  | nil =>
    simp only [List.nil_append, removeAbsGo, removeAbsGo_not_mem id l₂ h₂, if_pos ha,
      Option.getD_none]
  | cons x rest ih =>
    have hx : x.id ≠ id := h₁ x (List.mem_cons_self x rest)
    simp only [List.cons_append, removeAbsGo, List.append_eq,
      ih (fun y hy => h₁ y (List.mem_cons_of_mem x hy)), if_neg hx]

theorem removeAbsGo_sublist (id : String) (l : List Absence) :
    (removeAbsGo id l).1.Sublist l := by
  induction l with
  | nil => exact List.Sublist.refl _
  | cons a rest ih =>
    by_cases ha : a.id = id
    · simp only [removeAbsGo, if_pos ha]
      exact List.Sublist.cons a ih
    · simp only [removeAbsGo, if_neg ha]
      exact List.Sublist.cons₂ a ih

theorem updateEmpGo_not_mem (gen : Nat → String) (id : String) (u : RawUpdates)
    (l : List Employee) (c : Nat) (h : ∀ e ∈ l, e.id ≠ id) :
    updateEmpGo gen id u l c = (l, none, c) := by
  induction l with
  | nil => rfl
  | cons e rest ih =>
    have he : e.id ≠ id := h e (List.mem_cons_self e rest)
    simp only [updateEmpGo, if_neg he, ih (fun x hx => h x (List.mem_cons_of_mem e hx))]

theorem updateEmpGo_none (gen : Nat → String) (id : String) (u : RawUpdates)
    (l : List Employee) (c : Nat) (h : (updateEmpGo gen id u l c).2.1 = none) :
    updateEmpGo gen id u l c = (l, none, c) := by
  induction l generalizing c with
  | nil => rfl
  | cons e rest ih =>
    by_cases he : e.id = id
    · simp only [updateEmpGo, if_pos he] at h
      exact Option.noConfusion h
    · simp only [updateEmpGo, if_neg he] at h ⊢
      simp only [ih c h]

theorem updateEmpGo_found (gen : Nat → String) (id : String) (u : RawUpdates)
    (l₁ : List Employee) (e : Employee) (l₂ : List Employee) (c : Nat)
    (he : e.id = id) (h₁ : ∀ x ∈ l₁, x.id ≠ id) (h₂ : ∀ x ∈ l₂, x.id ≠ id) :
    updateEmpGo gen id u (l₁ ++ e :: l₂) c =
      ((l₁ ++ (normaliseEmployee gen c (some (mergedRaw e u))).1 :: l₂),
        some (normaliseEmployee gen c (some (mergedRaw e u))).1,
        (normaliseEmployee gen c (some (mergedRaw e u))).2) := by
  induction l₁ generalizing c with
  | nil =>
    simp only [List.nil_append, updateEmpGo, if_pos he,
      updateEmpGo_not_mem gen id u l₂ _ h₂, Option.getD_none]
  | cons x rest ih =>
    have hx : x.id ≠ id := h₁ x (List.mem_cons_self x rest)
    simp only [List.cons_append, updateEmpGo, List.append_eq, if_neg hx,
      ih c (fun y hy => h₁ y (List.mem_cons_of_mem x hy))]

/-- With a successful persistence write, an operation that rejects leaves the
committed document value unchanged (the mutations the source performs before a
`throw` are value-level identities). -/
theorem applyOp_error_doc_eq (gen : Nat → String) (op : Op) (st : StoreSt) (e : Err)
    (h : (applyOp gen true op st).1 = Except.error e) :
    ((applyOp gen true op st).2).doc = st.doc := by
  cases op with
  | setBrandingLogo p => simp [applyOp] at h
  | removeBrandingLogo => simp [applyOp] at h
  | addEmployee p =>
    simp only [applyOp] at h ⊢
    split at h <;> split at h <;> simp_all
  | updateEmployee id u =>
    simp only [applyOp] at h ⊢
    cases hr : (updateEmpGo gen id u st.doc.employees st.ctr).2.1 with
    | none =>
      simp only [(updateEmpGo_none gen id u st.doc.employees st.ctr hr)]
    | some x => simp [hr] at h
  | removeEmployee id =>
    simp only [applyOp] at h ⊢
    cases hr : (removeEmpGo id st.doc.employees).2 with
    | none => simp [hr]
    | some x => simp [hr] at h
  | setEmployeeStatus id v =>
    simp only [applyOp] at h ⊢
    cases hr : (setStatusGo id v.truthy st.doc.employees).2 with
    | none =>
      simp only [(setStatusGo_none id v.truthy st.doc.employees hr)]
    | some x => simp [hr] at h
  | addAbsence p =>
    simp only [applyOp] at h ⊢
    cases hr : (normaliseAbsence gen
        (if p.id.truthy then (p.id, st.ctr) else (.jstr (gen st.ctr), st.ctr + 1)).2
        (some { p with
          id := (if p.id.truthy then (p.id, st.ctr) else (.jstr (gen st.ctr), st.ctr + 1)).1 })
        none).1 with
    | none => simp [hr]
    | some a => simp [hr] at h
  | removeAbsence id =>
    simp only [applyOp] at h ⊢
    cases hr : (removeAbsGo id st.doc.absences).2 with
    | none => simp [hr]
    | some a => simp [hr] at h

theorem uuidLike_spec {s : String} (h : uuidLike s = true) : jsTrim s = s ∧ s ≠ "" := by
  simp only [uuidLike, isTrimmed, Bool.and_eq_true, beq_iff_eq, bne_iff_ne] at h
  exact h

theorem trimmedOr_ne_empty (v : JVal) (fb : String) (hfb : fb ≠ "") :
    trimmedOr v fb ≠ "" := by
  cases v with
  | jstr s =>
    simp only [trimmedOr]
    split
    · exact hfb
    · next hne => exact hne
  | undef => exact hfb
  | jnull => exact hfb
  | jbool b => exact hfb
  | jnum n => exact hfb

/-- Closed form of `normaliseEmployee` on an object input. -/
theorem normaliseEmployee_some (gen : Nat → String) (c : Nat) (e : RawEmployee) :
    normaliseEmployee gen c (some e) =
      ({ id := (match e.id with
            | .jstr s => if jsTrim s = "" then gen c else jsTrim s
            | _ => gen c),
         name := trimmedOr e.name "Ukendt medarbejder",
         department := trimmedOr e.department "Øvrige",
         role := trimOrEmpty e.role, photo := trimOrEmpty e.photo,
         isCheckedIn := e.isCheckedIn.truthy },
       (match e.id with
        | .jstr s => if jsTrim s = "" then c + 1 else c
        | _ => c + 1)) := by
  cases hi : e.id with
  | jstr s => by_cases ht : jsTrim s = "" <;> simp [normaliseEmployee, hi, ht]
  | undef => simp [normaliseEmployee, hi]
  | jnull => simp [normaliseEmployee, hi]
  | jbool b => simp [normaliseEmployee, hi]
  | jnum n => simp [normaliseEmployee, hi]

/-- The validation of `addEmployee` can only ever fire on the role: the
normalised name falls back to a non-empty sentinel, so the operation rejects
with the validation error exactly when the trimmed role is empty. -/
theorem addEmployee_error_iff (gen : Nat → String) (st : StoreSt) (p : RawEmployee) :
    ((applyOp gen true (Op.addEmployee p) st).1 = Except.error Err.validation
      ↔ trimOrEmpty p.role = "") := by
  have hn := trimmedOr_ne_empty p.name "Ukendt medarbejder" (by decide)
  by_cases hid : p.id.truthy <;>
    by_cases hr : trimOrEmpty p.role = "" <;>
      simp [applyOp, normaliseEmployee_some, hid, hn, hr]

/-- Splitting a canonical employee into its defining facts. -/
theorem canonical_spec {e : Employee} (he : Employee.canonical e = true) :
    jsTrim e.id = e.id ∧ e.id ≠ "" ∧ jsTrim e.name = e.name ∧ e.name ≠ ""
      ∧ jsTrim e.department = e.department ∧ e.department ≠ ""
      ∧ jsTrim e.role = e.role ∧ jsTrim e.photo = e.photo := by
  simp only [Employee.canonical, isTrimmed, Bool.and_eq_true, beq_iff_eq,
    bne_iff_ne, decide_eq_true_eq] at he
  tauto

/-- Re-normalising the merge of a partial update over a canonical employee
keeps the id and the counter and merges field-wise. -/
theorem normaliseEmployee_merged (gen : Nat → String) (c : Nat) (e : Employee)
    (u : RawUpdates) (he : Employee.canonical e = true) :
    normaliseEmployee gen c (some (mergedRaw e u)) = (mergeUpdated e u, c) := by
  obtain ⟨hi1, hi2, hn1, hn2, hd1, hd2, hr1, hp1⟩ := canonical_spec he
  obtain ⟨un, ud, ur, up, uc⟩ := u
  cases un <;> cases ud <;> cases ur <;> cases up <;>
    simp_all [normaliseEmployee_some, mergedRaw, mergeUpdated, trimmedOr,
      trimOrEmpty, JVal.truthy]

/-- The validity of an absence payload does not depend on its id field. -/
theorem absenceInvalid_set_id (p : RawAbsence) (x : JVal) :
    absenceInvalid { p with id := x } = absenceInvalid p :=
  rfl

/-- `normaliseAbsence` without `validIds` rejects exactly the payloads
`absenceInvalid` describes; the id field never causes rejection. -/
theorem normaliseAbsence_isNone (gen : Nat → String) (c : Nat) (a : RawAbsence) :
    ((normaliseAbsence gen c (some a) none).1 = none ↔ absenceInvalid a = true) := by
  obtain ⟨ai, ae, af, at', ar⟩ := a
  cases ae <;> cases af <;> cases at' <;>
    simp only [normaliseAbsence, absenceInvalid, JVal.asString] <;>
    (try split_ifs) <;> simp_all

/-! ### Claim theorems -/

/-- Executing the chain extended by a batch of submissions runs the batch
sequentially from wherever the existing chain left the store. -/
theorem execChain_foldl (gen : Nat → String) (ops : List (Op × Bool)) :
    ∀ (ch : Chain) (st : StoreSt),
      execChain gen (ops.foldl (fun ch ob => Chain.link ch ob.1 ob.2) ch) st =
        ((runSequential gen ops (execChain gen ch st).1).1,
         (execChain gen ch st).2 ++ (runSequential gen ops (execChain gen ch st).1).2) := by
  induction ops with
  | nil => intro ch st; simp [runSequential]
  | cons ob rest ih =>
    intro ch st
    simp only [List.foldl_cons]
    rw [ih (Chain.link ch ob.1 ob.2) st]
    simp only [execChain, runSequential]
    simp [List.append_assoc]

/-- Every submitted unit produces exactly one outcome. -/
theorem runSequential_length (gen : Nat → String) (ops : List (Op × Bool)) :
    ∀ st, (runSequential gen ops st).2.length = ops.length := by
  induction ops with
  | nil => intro st; rfl
  | cons ob rest ih =>
    intro st
    simp [runSequential, ih]

/-- Sequential execution is compositional: a later batch runs from the state
the earlier batch left, whatever the earlier outcomes were. -/
theorem runSequential_append (gen : Nat → String) (ops₁ ops₂ : List (Op × Bool)) :
    ∀ st, runSequential gen (ops₁ ++ ops₂) st =
      ((runSequential gen ops₂ (runSequential gen ops₁ st).1).1,
       (runSequential gen ops₁ st).2 ++ (runSequential gen ops₂ (runSequential gen ops₁ st).1).2) := by
  induction ops₁ with
  | nil => intro st; simp [runSequential]
  | cons ob rest ih =>
    intro st
    simp only [List.cons_append, List.append_eq, runSequential]
    rw [ih]

theorem pickFresh_not_mem (gen : Nat → String) (c : Nat) (cand : String)
    (taken : List String) (n : Nat) (h : cand ∉ taken) :
    pickFresh gen c cand taken (n + 1) = (cand, c) := by
  simp [pickFresh, h]

/-- The id and counter behaviour of `normaliseEmployee` in terms of
`rawEmpId`. -/
theorem normaliseEmployee_id (gen : Nat → String) (c : Nat) (raw : Option RawEmployee) :
    (normaliseEmployee gen c raw).1.id = (rawEmpId raw).getD (gen c)
    ∧ (normaliseEmployee gen c raw).2 = (if (rawEmpId raw).isSome then c else c + 1) := by
  cases raw with
  | none => simp [normaliseEmployee, rawEmpId]
  | some e =>
    cases hi : e.id with
    | jstr s =>
      by_cases ht : jsTrim s = "" <;> simp [normaliseEmployee_some, rawEmpId, hi, ht]
    | undef => simp [normaliseEmployee_some, rawEmpId, hi]
    | jnull => simp [normaliseEmployee_some, rawEmpId, hi]
    | jbool b => simp [normaliseEmployee_some, rawEmpId, hi]
    | jnum n => simp [normaliseEmployee_some, rawEmpId, hi]

theorem rawEmpId_ne_empty {raw : Option RawEmployee} {t : String}
    (h : rawEmpId raw = some t) : t ≠ "" := by
  cases raw with
  | none => exact Option.noConfusion h
  | some e =>
    cases hi : e.id with
    | jstr s =>
      by_cases ht : jsTrim s = ""
      · simp [rawEmpId, hi, ht] at h
      · simp only [rawEmpId, hi, if_neg ht, Option.some.injEq] at h
        exact h ▸ ht
    | undef => simp [rawEmpId, hi] at h
    | jnull => simp [rawEmpId, hi] at h
    | jbool b => simp [rawEmpId, hi] at h
    | jnum n => simp [rawEmpId, hi] at h

theorem normaliseEmployee_ctr_ge (gen : Nat → String) (c : Nat)
    (raw : Option RawEmployee) : c ≤ (normaliseEmployee gen c raw).2 := by
  rw [(normaliseEmployee_id gen c raw).2]
  split
  · exact Nat.le_refl c
  · exact Nat.le_succ c

theorem genBefore_mono (gen : Nat → String) {c c' : Nat} (h : c ≤ c') {s : String} :
    genBefore gen c s → genBefore gen c' s :=
  fun hb => hb.elim (fun k hk => ⟨k, Nat.lt_of_lt_of_le hk.1 h, hk.2⟩)

/-- The collision loop run with fuel `taken.length + 1` returns an id outside
`taken` whenever the generator is injective and avoids `R`, and every id in
`taken` is from `R` or an earlier generator output; the result is the
candidate itself or a fresh generator output. -/
theorem pickFresh_spec (gen : Nat → String) (R : List String)
    (hinj : Function.Injective gen) (havoid : ∀ n, gen n ∉ R)
    (taken : List String) (c : Nat) (cand : String)
    (htk : ∀ s ∈ taken, s ∈ R ∨ genBefore gen c s) :
    (pickFresh gen c cand taken (taken.length + 1)).1 ∉ taken
    ∧ c ≤ (pickFresh gen c cand taken (taken.length + 1)).2
    ∧ ((pickFresh gen c cand taken (taken.length + 1)).1 = cand
        ∧ (pickFresh gen c cand taken (taken.length + 1)).2 = c
      ∨ genBefore gen (pickFresh gen c cand taken (taken.length + 1)).2
          (pickFresh gen c cand taken (taken.length + 1)).1) := by
  by_cases hc : cand ∈ taken
  · have hgc : gen c ∉ taken := by
      intro hmem
      rcases htk (gen c) hmem with hR | ⟨k, hk, hke⟩
      · exact havoid c hR
      · exact absurd (hinj hke) (Nat.ne_of_lt hk)
    cases taken with
    | nil => exact absurd hc (List.not_mem_nil cand)
    | cons t ts =>
      have hstep : pickFresh gen c cand (t :: ts) ((t :: ts).length + 1) =
          pickFresh gen (c + 1) (gen c) (t :: ts) (ts.length + 1) := by
        simp only [pickFresh, if_pos hc, List.length_cons]
      rw [hstep, pickFresh_not_mem gen (c + 1) (gen c) (t :: ts) ts.length hgc]
      exact ⟨hgc, Nat.le_succ c, Or.inr ⟨c, Nat.lt_succ_self c, rfl⟩⟩
  · rw [pickFresh_not_mem gen c cand taken taken.length hc]
    exact ⟨hc, Nat.le_refl c, Or.inl ⟨rfl, rfl⟩⟩

/-- The candidate computation `normalised.id || crypto.randomUUID()`. -/
theorem listStart_spec (gen : Nat → String) (nc : Employee × Nat) :
    nc.2 ≤ (listStart gen nc).2
    ∧ ((listStart gen nc).1 = nc.1.id ∧ nc.1.id ≠ "" ∧ (listStart gen nc).2 = nc.2
        ∨ genBefore gen (listStart gen nc).2 (listStart gen nc).1) := by
  unfold listStart
  by_cases hz : nc.1.id = ""
  · rw [if_pos hz]
    exact ⟨Nat.le_succ nc.2, Or.inr ⟨nc.2, Nat.lt_succ_self nc.2, rfl⟩⟩
  · rw [if_neg hz]
    exact ⟨Nat.le_refl nc.2, Or.inl ⟨rfl, hz, rfl⟩⟩

/-- One `normaliseEmployeeList` step under an injective generator avoiding
`R`: the chosen id is fresh, the counter advances, the id is the entry's own
(trimmed) id or a generator output, and an entry whose id avoids `taken`
passes through unchanged. -/
theorem normaliseEmployeeListStep_spec (gen : Nat → String) (R : List String)
    (hinj : Function.Injective gen) (havoid : ∀ n, gen n ∉ R)
    (c : Nat) (taken : List String) (raw : Option RawEmployee)
    (htk : ∀ s ∈ taken, s ∈ R ∨ genBefore gen c s) :
    (normaliseEmployeeListStep gen c taken raw).1.id ∉ taken
    ∧ c ≤ (normaliseEmployeeListStep gen c taken raw).2
    ∧ ((∃ t, rawEmpId raw = some t ∧ (normaliseEmployeeListStep gen c taken raw).1.id = t)
        ∨ genBefore gen (normaliseEmployeeListStep gen c taken raw).2
            (normaliseEmployeeListStep gen c taken raw).1.id)
    ∧ (∀ s, rawEmpId raw = some s → s ∉ taken →
        normaliseEmployeeListStep gen c taken raw = normaliseEmployee gen c raw) := by
  obtain ⟨hid, hctr⟩ := normaliseEmployee_id gen c raw
  obtain ⟨hsle, hsdisj⟩ := listStart_spec gen (normaliseEmployee gen c raw)
  have hcle : c ≤ (listStart gen (normaliseEmployee gen c raw)).2 :=
    Nat.le_trans (normaliseEmployee_ctr_ge gen c raw) hsle
  have htk2 : ∀ s ∈ taken,
      s ∈ R ∨ genBefore gen (listStart gen (normaliseEmployee gen c raw)).2 s :=
    fun s hs => (htk s hs).imp id (genBefore_mono gen hcle)
  obtain ⟨hfn, hfle, hfd⟩ := pickFresh_spec gen R hinj havoid taken
    (listStart gen (normaliseEmployee gen c raw)).2
    (listStart gen (normaliseEmployee gen c raw)).1 htk2
  refine ⟨hfn, Nat.le_trans hcle hfle, ?_, ?_⟩
  · rcases hfd with ⟨hfe, hf2⟩ | hfg
    · rcases hsdisj with ⟨hse, hzne, hs2⟩ | hsg
      · cases hraw : rawEmpId raw with
        | some t =>
          left
          refine ⟨t, rfl, ?_⟩
          show (pickFresh gen (listStart gen (normaliseEmployee gen c raw)).2
            (listStart gen (normaliseEmployee gen c raw)).1 taken (taken.length + 1)).1 = t
          rw [hfe, hse, hid, hraw]
          rfl
        | none =>
          right
          refine ⟨c, ?_, ?_⟩
          · show c < (pickFresh gen (listStart gen (normaliseEmployee gen c raw)).2
              (listStart gen (normaliseEmployee gen c raw)).1 taken (taken.length + 1)).2
            rw [hf2, hs2, hctr, hraw]
            simp
          · show gen c = (pickFresh gen (listStart gen (normaliseEmployee gen c raw)).2
              (listStart gen (normaliseEmployee gen c raw)).1 taken (taken.length + 1)).1
            rw [hfe, hse, hid, hraw]
            rfl
      · right
        show genBefore gen (pickFresh gen (listStart gen (normaliseEmployee gen c raw)).2
          (listStart gen (normaliseEmployee gen c raw)).1 taken (taken.length + 1)).2
          (pickFresh gen (listStart gen (normaliseEmployee gen c raw)).2
            (listStart gen (normaliseEmployee gen c raw)).1 taken (taken.length + 1)).1
        rw [hfe, hf2]
        exact hsg
    · right
      exact hfg
  · intro s hs hsn
    have hnid : (normaliseEmployee gen c raw).1.id = s := by
      rw [hid, hs]
      rfl
    have hsne : s ≠ "" := rawEmpId_ne_empty hs
    have hls : listStart gen (normaliseEmployee gen c raw) =
        ((normaliseEmployee gen c raw).1.id, (normaliseEmployee gen c raw).2) := by
      unfold listStart
      rw [if_neg (by rw [hnid]; exact hsne)]
    show ({ (normaliseEmployee gen c raw).1 with
        id := (pickFresh gen (listStart gen (normaliseEmployee gen c raw)).2
          (listStart gen (normaliseEmployee gen c raw)).1 taken (taken.length + 1)).1 },
      (pickFresh gen (listStart gen (normaliseEmployee gen c raw)).2
        (listStart gen (normaliseEmployee gen c raw)).1 taken (taken.length + 1)).2)
      = normaliseEmployee gen c raw
    rw [hls, pickFresh_not_mem gen (normaliseEmployee gen c raw).2
      (normaliseEmployee gen c raw).1.id taken taken.length (by rw [hnid]; exact hsn)]

theorem rawIdsOf_head {raw : Option RawEmployee} {rest : List (Option RawEmployee)}
    {t : String} (h : rawEmpId raw = some t) : t ∈ rawIdsOf (raw :: rest) := by
  simp [rawIdsOf, List.filterMap_cons, h]

theorem rawIdsOf_tail {raw : Option RawEmployee} {rest : List (Option RawEmployee)}
    {s : String} (h : s ∈ rawIdsOf rest) : s ∈ rawIdsOf (raw :: rest) := by
  simp only [rawIdsOf, List.filterMap_cons]
  cases hr : rawEmpId raw with
  | none => exact h
  | some t => exact List.mem_cons_of_mem t h

/-- Extending the taken set with the step's chosen id keeps the invariant
that every taken id is a raw id of the input or an earlier generator
output. -/
theorem normaliseEmployeeListStep_inv (gen : Nat → String) (R : List String)
    (hinj : Function.Injective gen) (havoid : ∀ n, gen n ∉ R)
    (c : Nat) (taken : List String) (raw : Option RawEmployee)
    (htk : ∀ s ∈ taken, s ∈ R ∨ genBefore gen c s)
    (hRh : ∀ t, rawEmpId raw = some t → t ∈ R) :
    ((normaliseEmployeeListStep gen c taken raw).1.id ∈ R
      ∨ genBefore gen (normaliseEmployeeListStep gen c taken raw).2
          (normaliseEmployeeListStep gen c taken raw).1.id)
    ∧ (∀ s ∈ (normaliseEmployeeListStep gen c taken raw).1.id :: taken,
        s ∈ R ∨ genBefore gen (normaliseEmployeeListStep gen c taken raw).2 s) := by
  obtain ⟨h1, h2, h3, h4⟩ := normaliseEmployeeListStep_spec gen R hinj havoid c taken raw htk
  have hmem : (normaliseEmployeeListStep gen c taken raw).1.id ∈ R
      ∨ genBefore gen (normaliseEmployeeListStep gen c taken raw).2
          (normaliseEmployeeListStep gen c taken raw).1.id := by
    rcases h3 with ⟨t, hrt, het⟩ | hg
    · exact Or.inl (het ▸ hRh t hrt)
    · exact Or.inr hg
  refine ⟨hmem, ?_⟩
  intro s hs
  rcases List.mem_cons.mp hs with rfl | htl
  · exact hmem
  · exact (htk s htl).imp id (genBefore_mono gen h2)

/-- `normaliseEmployeeList`'s walk under an injective generator avoiding `R`:
the output ids are pairwise distinct, avoid the initial taken set, and every
output id is a raw id of the input or a generator output. -/
theorem normaliseEmployeeListGo_spec (gen : Nat → String) (R : List String)
    (hinj : Function.Injective gen) (havoid : ∀ n, gen n ∉ R) :
    ∀ (raws : List (Option RawEmployee)) (c : Nat) (taken : List String),
      (∀ s ∈ rawIdsOf raws, s ∈ R) →
      (∀ s ∈ taken, s ∈ R ∨ genBefore gen c s) →
      (((normaliseEmployeeListGo gen c taken raws).1.map Employee.id).Nodup
       ∧ (∀ e ∈ (normaliseEmployeeListGo gen c taken raws).1, e.id ∉ taken)
       ∧ c ≤ (normaliseEmployeeListGo gen c taken raws).2
       ∧ (∀ e ∈ (normaliseEmployeeListGo gen c taken raws).1,
            e.id ∈ R ∨ genBefore gen (normaliseEmployeeListGo gen c taken raws).2 e.id)) := by
  intro raws
  induction raws with
  | nil =>
    intro c taken hR htk
    exact ⟨List.nodup_nil, by simp [normaliseEmployeeListGo], Nat.le_refl c,
      by simp [normaliseEmployeeListGo]⟩
  | cons raw rest ih =>
    intro c taken hR htk
    obtain ⟨h1, h2, h3, h4⟩ := normaliseEmployeeListStep_spec gen R hinj havoid c taken raw htk
    obtain ⟨hmem, htk1⟩ := normaliseEmployeeListStep_inv gen R hinj havoid c taken raw htk
      (fun t ht => hR t (rawIdsOf_head ht))
    have hRr : ∀ s ∈ rawIdsOf rest, s ∈ R := fun s hs => hR s (rawIdsOf_tail hs)
    obtain ⟨g1, g2, g3, g4⟩ := ih (normaliseEmployeeListStep gen c taken raw).2
      ((normaliseEmployeeListStep gen c taken raw).1.id :: taken) hRr htk1
    have hgo : normaliseEmployeeListGo gen c taken (raw :: rest) =
        ((normaliseEmployeeListStep gen c taken raw).1 ::
          (normaliseEmployeeListGo gen (normaliseEmployeeListStep gen c taken raw).2
            ((normaliseEmployeeListStep gen c taken raw).1.id :: taken) rest).1,
         (normaliseEmployeeListGo gen (normaliseEmployeeListStep gen c taken raw).2
            ((normaliseEmployeeListStep gen c taken raw).1.id :: taken) rest).2) := rfl
    rw [hgo]
    refine ⟨?_, ?_, Nat.le_trans h2 g3, ?_⟩
    · rw [List.map_cons, List.nodup_cons]
      refine ⟨?_, g1⟩
      intro hmm
      obtain ⟨e, he, hee⟩ := List.mem_map.mp hmm
      exact g2 e he (by rw [hee]; exact List.mem_cons_self _ _)
    · intro e he
      rcases List.mem_cons.mp he with rfl | htl
      · exact h1
      · exact fun hin => g2 e htl (List.mem_cons_of_mem _ hin)
    · intro e he
      rcases List.mem_cons.mp he with rfl | htl
      · exact hmem.imp id (genBefore_mono gen g3)
      · exact g4 e htl

/-- Each output position of the walk carries either that entry's own raw id
or a generator output. -/
theorem normaliseEmployeeListGo_get (gen : Nat → String) (R : List String)
    (hinj : Function.Injective gen) (havoid : ∀ n, gen n ∉ R) :
    ∀ (l₁ : List (Option RawEmployee)) (r : Option RawEmployee)
      (l₂ : List (Option RawEmployee)) (c : Nat) (taken : List String),
      (∀ s ∈ rawIdsOf (l₁ ++ r :: l₂), s ∈ R) →
      (∀ s ∈ taken, s ∈ R ∨ genBefore gen c s) →
      ∃ emp, (normaliseEmployeeListGo gen c taken (l₁ ++ r :: l₂)).1.get? l₁.length = some emp
        ∧ (rawEmpId r = some emp.id ∨ ∃ k, gen k = emp.id) := by
  intro l₁
  induction l₁ with
  | nil =>
    intro r l₂ c taken hR htk
    obtain ⟨h1, h2, h3, h4⟩ := normaliseEmployeeListStep_spec gen R hinj havoid c taken r htk
    refine ⟨(normaliseEmployeeListStep gen c taken r).1, rfl, ?_⟩
    rcases h3 with ⟨t, hrt, het⟩ | ⟨k, hk, hke⟩
    · exact Or.inl (by rw [hrt, het])
    · exact Or.inr ⟨k, hke⟩
  | cons x l₁' ih =>
    intro r l₂ c taken hR htk
    obtain ⟨hmem, htk1⟩ := normaliseEmployeeListStep_inv gen R hinj havoid c taken x htk
      (fun t ht => hR t (rawIdsOf_head ht))
    have hRr : ∀ s ∈ rawIdsOf (l₁' ++ r :: l₂), s ∈ R := fun s hs => hR s (rawIdsOf_tail hs)
    obtain ⟨emp, hget, hdisj⟩ := ih r l₂ (normaliseEmployeeListStep gen c taken x).2
      ((normaliseEmployeeListStep gen c taken x).1.id :: taken) hRr htk1
    refine ⟨emp, ?_, hdisj⟩
    have hgo : normaliseEmployeeListGo gen c taken ((x :: l₁') ++ r :: l₂) =
        ((normaliseEmployeeListStep gen c taken x).1 ::
          (normaliseEmployeeListGo gen (normaliseEmployeeListStep gen c taken x).2
            ((normaliseEmployeeListStep gen c taken x).1.id :: taken) (l₁' ++ r :: l₂)).1,
          (normaliseEmployeeListGo gen (normaliseEmployeeListStep gen c taken x).2
            ((normaliseEmployeeListStep gen c taken x).1.id :: taken) (l₁' ++ r :: l₂)).2) := rfl
    rw [hgo]
    simpa using hget

/-- The first entry carrying a given id (not carried by any earlier entry and
not present in the taken set) keeps that id through the walk. -/
theorem normaliseEmployeeListGo_first (gen : Nat → String) (R : List String)
    (hinj : Function.Injective gen) (havoid : ∀ n, gen n ∉ R) :
    ∀ (l₁ : List (Option RawEmployee)) (r : Option RawEmployee)
      (l₂ : List (Option RawEmployee)) (c : Nat) (taken : List String) (s : String),
      rawEmpId r = some s → s ∈ R → s ∉ rawIdsOf l₁ →
      (∀ x ∈ taken, x ≠ s) →
      (∀ x ∈ rawIdsOf (l₁ ++ r :: l₂), x ∈ R) →
      (∀ x ∈ taken, x ∈ R ∨ genBefore gen c x) →
      ∃ emp, (normaliseEmployeeListGo gen c taken (l₁ ++ r :: l₂)).1.get? l₁.length = some emp
        ∧ emp.id = s := by
  intro l₁
  induction l₁ with
  | nil =>
    intro r l₂ c taken s hraw hsR hsl htns hR htk
    obtain ⟨h1, h2, h3, h4⟩ := normaliseEmployeeListStep_spec gen R hinj havoid c taken r htk
    have hsn : s ∉ taken := fun hs => htns s hs rfl
    have hpass := h4 s hraw hsn
    refine ⟨(normaliseEmployeeListStep gen c taken r).1, rfl, ?_⟩
    rw [hpass, (normaliseEmployee_id gen c r).1, hraw]
    rfl
  | cons x l₁' ih =>
    intro r l₂ c taken s hraw hsR hsl htns hR htk
    obtain ⟨h1, h2, h3, h4⟩ := normaliseEmployeeListStep_spec gen R hinj havoid c taken x htk
    obtain ⟨hmem, htk1⟩ := normaliseEmployeeListStep_inv gen R hinj havoid c taken x htk
      (fun t ht => hR t (rawIdsOf_head ht))
    have hstepne : (normaliseEmployeeListStep gen c taken x).1.id ≠ s := by
      rcases h3 with ⟨t, hrt, het⟩ | ⟨k, hk, hke⟩
      · rw [het]
        intro hts
        exact hsl (hts ▸ rawIdsOf_head hrt)
      · rw [← hke]
        intro hgs
        exact havoid k (by rw [hgs]; exact hsR)
    have htns1 : ∀ y ∈ (normaliseEmployeeListStep gen c taken x).1.id :: taken, y ≠ s := by
      intro y hy
      rcases List.mem_cons.mp hy with rfl | htl
      · exact hstepne
      · exact htns y htl
    have hsl' : s ∉ rawIdsOf l₁' := fun hs => hsl (rawIdsOf_tail hs)
    have hRr : ∀ y ∈ rawIdsOf (l₁' ++ r :: l₂), y ∈ R := fun y hy => hR y (rawIdsOf_tail hy)
    obtain ⟨emp, hget, hempid⟩ := ih r l₂ (normaliseEmployeeListStep gen c taken x).2
      ((normaliseEmployeeListStep gen c taken x).1.id :: taken) s hraw hsR hsl' htns1 hRr htk1
    refine ⟨emp, ?_, hempid⟩
    have hgo : normaliseEmployeeListGo gen c taken ((x :: l₁') ++ r :: l₂) =
        ((normaliseEmployeeListStep gen c taken x).1 ::
          (normaliseEmployeeListGo gen (normaliseEmployeeListStep gen c taken x).2
            ((normaliseEmployeeListStep gen c taken x).1.id :: taken) (l₁' ++ r :: l₂)).1,
          (normaliseEmployeeListGo gen (normaliseEmployeeListStep gen c taken x).2
            ((normaliseEmployeeListStep gen c taken x).1.id :: taken) (l₁' ++ r :: l₂)).2) := rfl
    rw [hgo]
    simpa using hget

/-- Splitting a canonical absence into its defining facts. -/
theorem canonicalFor_spec {a : Absence} {ids : List String}
    (h : Absence.canonicalFor a ids = true) :
    jsTrim a.id = a.id ∧ a.id ≠ "" ∧ a.employeeId ≠ "" ∧ a.employeeId ∈ ids
      ∧ a.fromDate ≠ "" ∧ a.toDate ≠ "" ∧ jsDateGt a.fromDate a.toDate = false := by
  simp only [Absence.canonicalFor, isTrimmed, Bool.and_eq_true, beq_iff_eq, bne_iff_ne,
    decide_eq_true_eq, Bool.not_eq_true'] at h
  tauto

/-- Splitting a canonical document into its defining facts. -/
theorem docCanonical_spec {d : Doc} (h : Doc.canonical d = true) :
    d.employees.all Employee.canonical = true
      ∧ (d.employees.map Employee.id).Nodup
      ∧ d.absences.all (fun a => a.canonicalFor (d.employees.map Employee.id)) = true := by
  simp only [Doc.canonical, Bool.and_eq_true, decide_eq_true_eq] at h
  tauto

/-- Re-normalising the serialisation of a canonical employee is the
identity and consumes no generated id. -/
theorem normaliseEmployee_canonical (gen : Nat → String) (c : Nat) (e : Employee)
    (hc : Employee.canonical e = true) :
    normaliseEmployee gen c (some
      { id := .jstr e.id, name := .jstr e.name, department := .jstr e.department,
        role := .jstr e.role, photo := .jstr e.photo,
        isCheckedIn := .jbool e.isCheckedIn }) = (e, c) := by
  obtain ⟨hi1, hi2, hn1, hn2, hd1, hd2, hr1, hp1⟩ := canonical_spec hc
  simp [normaliseEmployee_some, trimmedOr, trimOrEmpty, JVal.truthy,
    hi1, hi2, hn1, hn2, hd1, hd2, hr1, hp1]

/-- Re-normalising the serialisation of a canonical employee list with
pairwise-distinct ids disjoint from `taken` is the identity. -/
theorem normaliseEmployeeListGo_canonical (gen : Nat → String) (l : List Employee) :
    ∀ (c : Nat) (taken : List String), l.all Employee.canonical = true →
      (l.map Employee.id).Nodup → (∀ e ∈ l, e.id ∉ taken) →
      normaliseEmployeeListGo gen c taken (l.map (fun e => some
        { id := .jstr e.id, name := .jstr e.name, department := .jstr e.department,
          role := .jstr e.role, photo := .jstr e.photo,
          isCheckedIn := .jbool e.isCheckedIn })) = (l, c) := by
  induction l with
  | nil => intro c taken _ _ _; rfl
  | cons e rest ih =>
    intro c taken hall hnd htk
    have hcan : Employee.canonical e = true := by
      simp only [List.all_cons, Bool.and_eq_true] at hall
      exact hall.1
    have hallr : rest.all Employee.canonical = true := by
      simp only [List.all_cons, Bool.and_eq_true] at hall
      exact hall.2
    obtain ⟨-, hi2, -⟩ := canonical_spec hcan
    have hni : e.id ∉ taken := htk e (List.mem_cons_self e rest)
    have hstep : normaliseEmployeeListStep gen c taken (some
        { id := .jstr e.id, name := .jstr e.name, department := .jstr e.department,
          role := .jstr e.role, photo := .jstr e.photo,
          isCheckedIn := .jbool e.isCheckedIn }) = (e, c) := by
      simp only [normaliseEmployeeListStep, listStart,
        normaliseEmployee_canonical gen c e hcan, if_neg hi2,
        pickFresh_not_mem gen c e.id taken taken.length hni]
    have hndr : (rest.map Employee.id).Nodup := (List.nodup_cons.mp hnd).2
    have hnotid : e.id ∉ rest.map Employee.id := (List.nodup_cons.mp hnd).1
    have htkr : ∀ x ∈ rest, x.id ∉ e.id :: taken := by
      intro x hx
      simp only [List.mem_cons]
      rintro (hx1 | hx2)
      · exact hnotid (hx1 ▸ List.mem_map_of_mem Employee.id hx)
      · exact htk x (List.mem_cons_of_mem e hx) hx2
    simp only [List.map_cons, normaliseEmployeeListGo, hstep,
      ih c (e.id :: taken) hallr hndr htkr]

/-- Re-normalising the serialisation of a list of canonical absences against
ids containing their employee ids is the identity. -/
theorem normaliseAbsenceList_canonical (gen : Nat → String) (ids : List String)
    (l : List Absence) : ∀ (c : Nat),
      l.all (fun a => a.canonicalFor ids) = true →
      normaliseAbsenceList gen c (l.map (fun a => some
        { id := .jstr a.id, employeeId := .jstr a.employeeId, fromDate := .jstr a.fromDate,
          toDate := .jstr a.toDate, reason := .jstr a.reason })) ids = (l, c) := by
  induction l with
  | nil => intro c _; rfl
  | cons a rest ih =>
    intro c hall
    have hca : Absence.canonicalFor a ids = true := by
      simp only [List.all_cons, Bool.and_eq_true] at hall
      exact hall.1
    have hallr : rest.all (fun a => a.canonicalFor ids) = true := by
      simp only [List.all_cons, Bool.and_eq_true] at hall
      exact hall.2
    obtain ⟨ha1, ha2, he1, he2, hf1, ht1, hdt⟩ := canonicalFor_spec hca
    have hstep : normaliseAbsence gen c (some
        { id := .jstr a.id, employeeId := .jstr a.employeeId, fromDate := .jstr a.fromDate,
          toDate := .jstr a.toDate, reason := .jstr a.reason }) (some ids) = (some a, c) := by
      simp [normaliseAbsence, JVal.asString, ha1, ha2, he1, he2, hf1, ht1, hdt]
    simp only [List.map_cons, normaliseAbsenceList, hstep, ih c hallr]

theorem genU_injective : Function.Injective genU := by
  intro a b h
  have h2 : (genU a).data.length = (genU b).data.length := by rw [h]
  simpa [genU] using h2

theorem genU_avoids : ∀ n, genU n ∉ rawIdsOf dupRaws := by
  intro n hmem
  have hl : rawIdsOf dupRaws = ["dup", "dup"] := rfl
  rw [hl] at hmem
  simp only [List.mem_cons, List.not_mem_nil, or_false] at hmem
  have hmem2 : genU n = "dup" := by
    rcases hmem with h | h
    · exact h
    · exact h
  have hd : List.replicate n 'u' = ['d', 'u', 'p'] := congrArg String.data hmem2
  have hlen : n = 3 := by
    have h3 := congrArg List.length hd
    simpa using h3
  subst hlen
  exact absurd hd (by decide)

/-- C9: under the idealised UUID source — an injective generator whose
outputs never coincide with an id carried by the raw list — normalising any
raw employee list yields pairwise-distinct ids; every position keeps its own
entry's (trimmed) id or receives a generator output; the first entry carrying
an id that no earlier entry carries keeps it; and concretely a two-entry list
sharing the id `dup` normalises to the ids `["dup", "uuid-0"]`: distinct,
the first preserving its id, the duplicate regenerated. -/
theorem normaliseEmployeeList_distinct (gen : Nat → String)
    (raws : List (Option RawEmployee)) (c : Nat)
    (hinj : Function.Injective gen)
    (havoid : ∀ n, gen n ∉ rawIdsOf raws) :
    (((normaliseEmployeeList gen c raws).1.map Employee.id).Nodup)
    ∧ (∀ l₁ r l₂, raws = l₁ ++ r :: l₂ →
        ∃ emp, (normaliseEmployeeList gen c raws).1.get? l₁.length = some emp
          ∧ (rawEmpId r = some emp.id ∨ ∃ k, gen k = emp.id))
    ∧ (∀ l₁ r l₂ s, raws = l₁ ++ r :: l₂ → rawEmpId r = some s → s ∉ rawIdsOf l₁ →
        ∃ emp, (normaliseEmployeeList gen c raws).1.get? l₁.length = some emp
          ∧ emp.id = s)
    ∧ (normaliseEmployeeList gen0 0 dupRaws).1.map Employee.id = ["dup", "uuid-0"] := by
  refine ⟨?_, ?_, ?_, by decide⟩
  · exact (normaliseEmployeeListGo_spec gen (rawIdsOf raws) hinj havoid raws c []
      (fun s hs => hs) (fun s hs => absurd hs (List.not_mem_nil s))).1
  · intro l₁ r l₂ hsplit
    subst hsplit
    exact normaliseEmployeeListGo_get gen (rawIdsOf (l₁ ++ r :: l₂)) hinj havoid l₁ r l₂ c []
      (fun s hs => hs) (fun s hs => absurd hs (List.not_mem_nil s))
  · intro l₁ r l₂ s hsplit hraw hsl
    subst hsplit
    have h0 : s ∈ rawIdsOf (r :: l₂) := rawIdsOf_head hraw
    have hsR : s ∈ rawIdsOf (l₁ ++ r :: l₂) := by
      show s ∈ List.filterMap rawEmpId (l₁ ++ r :: l₂)
      rw [List.filterMap_append]
      exact List.mem_append_right _ h0
    exact normaliseEmployeeListGo_first gen (rawIdsOf (l₁ ++ r :: l₂)) hinj havoid l₁ r l₂ c []
      s hraw hsR hsl (fun x hx => absurd hx (List.not_mem_nil x))
      (fun x hx => hx) (fun x hx => absurd hx (List.not_mem_nil x))

/-- Witness for C9: the concrete generator `genU` satisfies both generator
hypotheses, and normalising the shared-id example yields distinct ids. -/
theorem normaliseEmployeeList_distinct_witness :
    Function.Injective genU
    ∧ (∀ n, genU n ∉ rawIdsOf dupRaws)
    ∧ ((normaliseEmployeeList genU 0 dupRaws).1.map Employee.id).Nodup :=
  ⟨genU_injective, genU_avoids,
   (normaliseEmployeeList_distinct genU dupRaws 0 genU_injective genU_avoids).1⟩

/-- C1: the promise chain built by `enqueue` serialises the submitted units:
executing the chain equals applying the operations sequentially in submission
order, each unit (with its persistence outcome) fully completing before the
next starts; every submitted unit yields exactly one outcome of its own; a
later batch runs from whatever state the earlier units left — the chain tail
swallows rejections (`catch(() => undefined)`), so a failed unit never
prevents later units from running; and a unit that rejects while persistence
succeeds leaves the committed document value unchanged, so it does not alter
what later units observe. -/
theorem queue_serializes (gen : Nat → String) (ops : List (Op × Bool)) (st : StoreSt) :
    execChain gen (submitAll ops) st = runSequential gen ops st
    ∧ (runSequential gen ops st).2.length = ops.length
    ∧ (∀ ops₂, runSequential gen (ops ++ ops₂) st =
        ((runSequential gen ops₂ (runSequential gen ops st).1).1,
         (runSequential gen ops st).2 ++ (runSequential gen ops₂ (runSequential gen ops st).1).2))
    ∧ (∀ op st' e, (applyOp gen true op st').1 = Except.error e →
        ((applyOp gen true op st').2).doc = st'.doc) := by
  refine ⟨?_, runSequential_length gen ops st, fun ops₂ => runSequential_append gen ops ops₂ st,
    fun op st' e h => applyOp_error_doc_eq gen op st' e h⟩
  have h := execChain_foldl gen ops Chain.base st
  simpa [submitAll, execChain] using h

/-- Witness for C1: a concrete three-unit batch (a succeeding add, a failing
remove, a status change) executes through the chain exactly as the sequential
run, and the failing remove leaves the document unchanged. -/
theorem queue_serializes_witness :
    execChain gen0 (submitAll opsW) st0 = runSequential gen0 opsW st0
    ∧ ((applyOp gen0 true (Op.removeEmployee "nobody") st0).2).doc = st0.doc :=
  ⟨(queue_serializes gen0 opsW st0).1,
   (queue_serializes gen0 opsW st0).2.2.2 (Op.removeEmployee "nobody") st0
     Err.notFound (by decide)⟩

/-- C6 counterexample: a valid canonical document with an empty employees
list does not survive the save/load round trip — `normaliseState` replaces
the empty list by the built-in seed employees. -/
theorem roundtrip_empty_counterexample :
    Doc.canonical demptyDoc = true
    ∧ (normaliseState gen0 0 (some (docToRaw demptyDoc))).1 ≠ demptyDoc := by
  constructor
  · decide
  · decide

/-- C6 (amended): for every valid canonical document whose employees list is
non-empty, `save` followed by `load` (JSON serialisation followed by
`normaliseState`) returns the document unchanged; with an empty employees
list the normaliser substitutes the seed employees instead. -/
theorem roundtrip_amended (gen : Nat → String) (c : Nat) (d : Doc)
    (hc : Doc.canonical d = true) (hne : d.employees ≠ []) :
    normaliseState gen c (some (docToRaw d)) = (d, c) := by
  obtain ⟨hall, hnd, habs⟩ := docCanonical_spec hc
  have hmape : d.employees.map (fun e => some
      ({ id := .jstr e.id, name := .jstr e.name, department := .jstr e.department,
         role := .jstr e.role, photo := .jstr e.photo,
         isCheckedIn := .jbool e.isCheckedIn } : RawEmployee)) ≠ [] := by
    simpa using hne
  simp only [normaliseState, docToRaw, if_neg hmape, normaliseEmployeeList,
    normaliseEmployeeListGo_canonical gen d.employees c [] hall hnd
      (by intro e he; exact List.not_mem_nil e.id),
    normaliseAbsenceList_canonical gen (d.employees.map Employee.id) d.absences c habs]
  rfl

/-- Witness for C6 (amended): the built-in default document is canonical with
a non-empty employees list, and it round-trips unchanged. -/
theorem roundtrip_amended_witness :
    normaliseState gen0 0 (some (docToRaw DEFAULT_STATE)) = (DEFAULT_STATE, 0) :=
  roundtrip_amended gen0 0 DEFAULT_STATE (by decide) (by decide)

/-- C8 counterexample: the at-most-one-absence-per-employee invariant can
fail in a document reachable by zero operations — `normaliseState` performs
no per-employee deduplication, so a raw file holding two valid absences for
the same employee normalises to an initial state that already violates it. -/
theorem absence_invariant_counterexample :
    ¬ (((normaliseState gen0 0 (some rawDup)).1.absences.map Absence.employeeId).Nodup) := by
  decide

/-- C8 (amended): every store operation preserves the at-most-one-absence-per-
employee invariant (with either persistence outcome), and a successful
`addAbsence` leaves exactly one absence for its employee — the returned one —
so calling it twice for the same employee leaves only the second; but
normalisation itself does not establish the invariant, so it holds of
reachable documents only when the normalised initial state satisfies it. -/
theorem absence_invariant_amended (gen : Nat → String) (pOk : Bool) (op : Op)
    (st : StoreSt) (h : (st.doc.absences.map Absence.employeeId).Nodup) :
    ((((applyOp gen pOk op st).2).doc.absences.map Absence.employeeId).Nodup)
    ∧ (∀ p a', (applyOp gen pOk (Op.addAbsence p) st).1 = Except.ok (OpResult.absence a') →
        a' ∈ ((applyOp gen pOk (Op.addAbsence p) st).2).doc.absences
        ∧ ∀ b ∈ ((applyOp gen pOk (Op.addAbsence p) st).2).doc.absences,
            b.employeeId = a'.employeeId → b = a') := by
  have haddAbs : ∀ (p : RawAbsence),
      (((applyOp gen pOk (Op.addAbsence p) st).2).doc.absences.map Absence.employeeId).Nodup
      ∧ (∀ a', (applyOp gen pOk (Op.addAbsence p) st).1 = Except.ok (OpResult.absence a') →
          a' ∈ ((applyOp gen pOk (Op.addAbsence p) st).2).doc.absences
          ∧ ∀ b ∈ ((applyOp gen pOk (Op.addAbsence p) st).2).doc.absences,
              b.employeeId = a'.employeeId → b = a') := by
    intro p
    cases hac : (normaliseAbsence gen (if p.id.truthy then (p.id, st.ctr)
        else (.jstr (gen st.ctr), st.ctr + 1)).2
        (some { p with id := (if p.id.truthy then (p.id, st.ctr)
          else (.jstr (gen st.ctr), st.ctr + 1)).1 }) none).1 with
    | none =>
      have happly : applyOp gen pOk (Op.addAbsence p) st =
          (Except.error Err.validation,
            { st with ctr := (normaliseAbsence gen (if p.id.truthy then (p.id, st.ctr)
                else (.jstr (gen st.ctr), st.ctr + 1)).2
                (some { p with id := (if p.id.truthy then (p.id, st.ctr)
                  else (.jstr (gen st.ctr), st.ctr + 1)).1 }) none).2 }) := by
        simp only [applyOp, hac]
      rw [happly]
      exact ⟨h, fun a' ha' => Except.noConfusion ha'⟩
    | some a0 =>
      have hfil : ((st.doc.absences.filter
          (fun en => en.employeeId ≠ a0.employeeId)).map Absence.employeeId).Nodup :=
        List.Nodup.sublist (List.Sublist.map Absence.employeeId
          (List.filter_sublist st.doc.absences)) h
      have hnotin : a0.employeeId ∉ (st.doc.absences.filter
          (fun en => en.employeeId ≠ a0.employeeId)).map Absence.employeeId := by
        intro hm
        obtain ⟨b, hb, hbe⟩ := List.mem_map.mp hm
        have hb2 := (List.mem_filter.mp hb).2
        simp only [decide_eq_true_eq] at hb2
        exact hb2 hbe
      have hkey : ∀ b ∈ st.doc.absences.filter
            (fun en => en.employeeId ≠ a0.employeeId) ++ [a0],
          b.employeeId = a0.employeeId → b = a0 := by
        intro b hb hbe
        rcases List.mem_append.mp hb with hbl | hbr
        · exact absurd hbe (by
            have hb2 := (List.mem_filter.mp hbl).2
            simpa using hb2)
        · simpa using hbr
      have hnodup : (((st.doc.absences.filter
            (fun en => en.employeeId ≠ a0.employeeId)) ++ [a0]).map
              Absence.employeeId).Nodup := by
        rw [List.map_append]
        simp only [List.map_cons, List.map_nil]
        rw [List.nodup_append]
        exact ⟨hfil, List.nodup_singleton _, by
          intro x hx hx2
          simp only [List.mem_singleton] at hx2
          exact hnotin (hx2 ▸ hx)⟩
      have happly : applyOp gen pOk (Op.addAbsence p) st =
          ((if pOk then Except.ok (OpResult.absence a0) else Except.error Err.persistence),
            { doc := { st.doc with absences :=
                st.doc.absences.filter (fun en => en.employeeId ≠ a0.employeeId) ++ [a0] },
              ctr := (normaliseAbsence gen (if p.id.truthy then (p.id, st.ctr)
                else (.jstr (gen st.ctr), st.ctr + 1)).2
                (some { p with id := (if p.id.truthy then (p.id, st.ctr)
                  else (.jstr (gen st.ctr), st.ctr + 1)).1 }) none).2 }) := by
        simp only [applyOp, hac]
        cases pOk <;> rfl
      rw [happly]
      refine ⟨hnodup, ?_⟩
      intro a' ha'
      cases pOk with
      | false => simp at ha'
      | true =>
        have ha0 : a0 = a' := by simpa using ha'
        subst ha0
        exact ⟨by simp, hkey⟩
  refine ⟨?_, fun p => (haddAbs p).2⟩
  cases op with
  | setBrandingLogo lp => cases pOk <;> exact h
  | removeBrandingLogo => cases pOk <;> exact h
  | addEmployee p =>
    simp only [applyOp]
    split <;> split <;> (try split) <;> exact h
  | updateEmployee id u =>
    simp only [applyOp]
    cases hr : (updateEmpGo gen id u st.doc.employees st.ctr).2.1 with
    | none => simp only [hr]; exact h
    | some x => simp only [hr]; split <;> exact h
  | removeEmployee id =>
    simp only [applyOp]
    cases hr : (removeEmpGo id st.doc.employees).2 with
    | none => simp only [hr]; exact h
    | some x =>
      simp only [hr]
      have hfil : ((st.doc.absences.filter
          (fun a => a.employeeId ≠ id)).map Absence.employeeId).Nodup :=
        List.Nodup.sublist (List.Sublist.map Absence.employeeId
          (List.filter_sublist st.doc.absences)) h
      split <;> exact hfil
  | setEmployeeStatus id v =>
    simp only [applyOp]
    cases hr : (setStatusGo id v.truthy st.doc.employees).2 with
    | none => simp only [hr]; exact h
    | some x => simp only [hr]; split <;> exact h
  | addAbsence p => exact (haddAbs p).1
  | removeAbsence id =>
    simp only [applyOp]
    cases hr : (removeAbsGo id st.doc.absences).2 with
    | none => simp only [hr]; exact h
    | some x =>
      simp only [hr]
      have hrem := removeAbsGo_sublist id st.doc.absences
      have : (((removeAbsGo id st.doc.absences).1).map Absence.employeeId).Nodup :=
        List.Nodup.sublist (List.Sublist.map Absence.employeeId hrem) h
      split <;> exact this

/-- Witness for C8 (amended): adding a second absence for the first seed
employee to a store already holding one keeps the invariant, and the new
absence is the only one left for that employee. -/
theorem absence_invariant_amended_witness :
    (((applyOp gen0 true (Op.addAbsence absAmalie2raw) stWithAbs).2).doc.absences.map
        Absence.employeeId).Nodup
    ∧ absAmalie2 ∈ ((applyOp gen0 true (Op.addAbsence absAmalie2raw) stWithAbs).2).doc.absences
    ∧ absAmalie ∉ ((applyOp gen0 true (Op.addAbsence absAmalie2raw) stWithAbs).2).doc.absences :=
  ⟨(absence_invariant_amended gen0 true (Op.addAbsence absAmalie2raw) stWithAbs
      (by decide)).1,
   ((absence_invariant_amended gen0 true (Op.addAbsence absAmalie2raw) stWithAbs
      (by decide)).2 absAmalie2raw absAmalie2 (by decide)).1,
   fun hmem =>
     absurd (((absence_invariant_amended gen0 true (Op.addAbsence absAmalie2raw) stWithAbs
       (by decide)).2 absAmalie2raw absAmalie2 (by decide)).2 absAmalie hmem (by decide))
       (by decide)⟩

/-- C2 counterexample: when the persistence write fails, the already-applied
in-memory mutation of `addEmployee` is not rolled back — a subsequent
`getState` observes the new employee even though the operation rejected. -/
theorem persist_failure_counterexample :
    (applyOp gen0 false (Op.addEmployee pAB) st0).1 = Except.error Err.persistence
    ∧ getState ((applyOp gen0 false (Op.addEmployee pAB) st0).2) ≠ getState st0 := by
  constructor
  · decide
  · decide

/-- C2 (amended): if the persistence write fails, an operation that would
otherwise have succeeded rejects with the persistence error, but the
in-memory document it leaves behind is exactly the mutated document of the
successful run — the mutation is applied before `persist` and never reverted,
so subsequent `getState` calls observe the new value, not the pre-operation
one. -/
theorem persistFailure_amended (gen : Nat → String) (op : Op) (st : StoreSt)
    (res : OpResult) (h : (applyOp gen true op st).1 = Except.ok res) :
    applyOp gen false op st = (Except.error Err.persistence, (applyOp gen true op st).2) := by
  cases op with
  | setBrandingLogo p => rfl
  | removeBrandingLogo => rfl
  | addEmployee p =>
    simp only [applyOp] at h ⊢
    split at h <;> split at h <;> simp_all
  | updateEmployee id u =>
    simp only [applyOp] at h ⊢
    cases hr : (updateEmpGo gen id u st.doc.employees st.ctr).2.1 with
    | none => simp [hr] at h
    | some x => simp [hr]
  | removeEmployee id =>
    simp only [applyOp] at h ⊢
    cases hr : (removeEmpGo id st.doc.employees).2 with
    | none => simp [hr] at h
    | some x => simp [hr]
  | setEmployeeStatus id v =>
    simp only [applyOp] at h ⊢
    cases hr : (setStatusGo id v.truthy st.doc.employees).2 with
    | none => simp [hr] at h
    | some x => simp [hr]
  | addAbsence p =>
    simp only [applyOp] at h ⊢
    cases hac : (normaliseAbsence gen (if p.id.truthy then (p.id, st.ctr)
        else (.jstr (gen st.ctr), st.ctr + 1)).2
        (some { p with id := (if p.id.truthy then (p.id, st.ctr)
          else (.jstr (gen st.ctr), st.ctr + 1)).1 }) none).1 with
    | none => simp [hac] at h
    | some a0 => simp [hac]
  | removeAbsence id =>
    simp only [applyOp] at h ⊢
    cases hr : (removeAbsGo id st.doc.absences).2 with
    | none => simp [hr] at h
    | some x => simp [hr]

/-- Witness for C2 (amended): a failing persistence write after a valid
`addEmployee` rejects with the persistence error and keeps the appended
employee in memory. -/
theorem persistFailure_amended_witness :
    applyOp gen0 false (Op.addEmployee pAB) st0 =
      (Except.error Err.persistence, (applyOp gen0 true (Op.addEmployee pAB) st0).2) :=
  persistFailure_amended gen0 (Op.addEmployee pAB) st0
    (OpResult.employee
      { id := "uuid-0", name := "A", department := "Øvrige",
        role := "B", photo := "", isCheckedIn := false }) (by decide)

/-- C4 counterexample: `addAbsence` accepts an absence whose `employeeId`
refers to no employee of the current document — the existence check is
performed by the HTTP layer, not the store operation the claim is about. -/
theorem addAbsence_missing_employee_counterexample :
    (applyOp gen0 true (Op.addAbsence ghostAbs) st0).1 =
      Except.ok (OpResult.absence
        { id := "uuid-0", employeeId := "ghost", fromDate := "2024-01-01",
          toDate := "2024-01-02", reason := "other" })
    ∧ st0.doc.employees.all (fun e => e.id ≠ "ghost") = true
    ∧ (applyOp gen0 true (Op.addAbsence ghostAbs) st0).1
        ≠ Except.error Err.validation := by
  refine ⟨by decide, by decide, by decide⟩

/-- C4 (amended): `addAbsence(fields)` fails with `ValidationError` exactly
when `employeeId` is not a non-empty string, `from` or `to` is not a
non-empty string, or `from > to` as dates — whether `employeeId` refers to an
existing employee is not checked; the document is unchanged on every failing
case, and on success the new absence replaces any same-employee absences and
is appended. -/
theorem addAbsence_amended (gen : Nat → String) (st : StoreSt) (p : RawAbsence) :
    ((applyOp gen true (Op.addAbsence p) st).1 = Except.error Err.validation
        ↔ absenceInvalid p = true)
    ∧ ((applyOp gen true (Op.addAbsence p) st).1 = Except.error Err.validation →
        ((applyOp gen true (Op.addAbsence p) st).2).doc = st.doc)
    ∧ (∀ a', (applyOp gen true (Op.addAbsence p) st).1 = Except.ok (OpResult.absence a') →
        ((applyOp gen true (Op.addAbsence p) st).2).doc =
          { st.doc with absences :=
              st.doc.absences.filter (fun en => en.employeeId ≠ a'.employeeId) ++ [a'] }) := by
  refine ⟨?_, ?_, ?_⟩
  · simp only [applyOp]
    cases hac : (normaliseAbsence gen (if p.id.truthy then (p.id, st.ctr)
        else (.jstr (gen st.ctr), st.ctr + 1)).2
        (some { p with id := (if p.id.truthy then (p.id, st.ctr)
          else (.jstr (gen st.ctr), st.ctr + 1)).1 }) none).1 with
    | none =>
      have h2 := (normaliseAbsence_isNone gen
        ((if p.id.truthy then (p.id, st.ctr) else (JVal.jstr (gen st.ctr), st.ctr + 1)).2)
        { p with id := (if p.id.truthy then (p.id, st.ctr)
          else (JVal.jstr (gen st.ctr), st.ctr + 1)).1 }).mp hac
      rw [absenceInvalid_set_id] at h2
      simp [hac, h2]
    | some a0 =>
      have h2 : absenceInvalid p ≠ true := by
        intro hinv
        have h3 := (normaliseAbsence_isNone gen
          ((if p.id.truthy then (p.id, st.ctr) else (JVal.jstr (gen st.ctr), st.ctr + 1)).2)
          { p with id := (if p.id.truthy then (p.id, st.ctr)
            else (JVal.jstr (gen st.ctr), st.ctr + 1)).1 }).mpr
          (by rw [absenceInvalid_set_id]; exact hinv)
        rw [hac] at h3
        exact Option.noConfusion h3
      simp [hac, h2]
  · intro h
    exact applyOp_error_doc_eq gen (Op.addAbsence p) st Err.validation h
  · intro a' h
    simp only [applyOp] at h ⊢
    cases hac : (normaliseAbsence gen (if p.id.truthy then (p.id, st.ctr)
        else (.jstr (gen st.ctr), st.ctr + 1)).2
        (some { p with id := (if p.id.truthy then (p.id, st.ctr)
          else (.jstr (gen st.ctr), st.ctr + 1)).1 }) none).1 with
    | none => simp [hac] at h
    | some a0 =>
      simp only [hac] at h ⊢
      simp only [if_true] at h ⊢
      have ha : a0 = a' := by
        simpa using h
      subst ha
      rfl

/-- Witness for C4 (amended): the spec's own example `{from:"2024-02-01",
to:"2024-01-01"}` is rejected with the validation error and leaves the
document unchanged. -/
theorem addAbsence_amended_witness :
    (applyOp gen0 true (Op.addAbsence badDatesAbs) st0).1 = Except.error Err.validation
    ∧ ((applyOp gen0 true (Op.addAbsence badDatesAbs) st0).2).doc = st0.doc :=
  ⟨(addAbsence_amended gen0 st0 badDatesAbs).1.mpr (by decide),
   (addAbsence_amended gen0 st0 badDatesAbs).2.1
     ((addAbsence_amended gen0 st0 badDatesAbs).1.mpr (by decide))⟩

/-- C5 counterexample: `updateEmployee` performs no re-validation — merging
`{role: ""}` over the first seed employee leaves the role empty, yet the
operation succeeds instead of failing with a validation error. -/
theorem updateEmployee_no_revalidation_counterexample :
    (applyOp gen0 true (Op.updateEmployee "amalie-korvig" updEmptyRole) st0).1 =
      Except.ok (OpResult.employee amalieEmptyRole)
    ∧ (applyOp gen0 true (Op.updateEmployee "amalie-korvig" updEmptyRole) st0).1
        ≠ Except.error Err.validation := by
  constructor
  · decide
  · decide

/-- C5 (amended): `updateEmployee(id, partialFields)` fails with
`NotFoundError` when no employee has the id; for an existing (canonical)
record it merges the partial fields over the existing record — fields absent
from the partial keep their prior values, the id is preserved — and
re-normalises the merge, but performs no re-validation: the operation
succeeds for every partial, including one that blanks the role; the
re-normalised name can never end up empty because a blank merge falls back to
the sentinel. -/
theorem updateEmployee_amended (gen : Nat → String) (st : StoreSt) (id : String)
    (u : RawUpdates) :
    ((∀ e ∈ st.doc.employees, e.id ≠ id) →
        applyOp gen true (Op.updateEmployee id u) st = (Except.error Err.notFound, st))
    ∧ (∀ l₁ e l₂, st.doc.employees = l₁ ++ e :: l₂ → e.id = id →
        (∀ x ∈ l₁, x.id ≠ id) → (∀ x ∈ l₂, x.id ≠ id) →
        Employee.canonical e = true →
        (applyOp gen true (Op.updateEmployee id u) st =
          (Except.ok (OpResult.employee (mergeUpdated e u)),
            { st with doc := { st.doc with
                employees := l₁ ++ mergeUpdated e u :: l₂ } }))
        ∧ (mergeUpdated e u).id = e.id
        ∧ (u.name = none → (mergeUpdated e u).name = e.name)
        ∧ (u.department = none → (mergeUpdated e u).department = e.department)
        ∧ (u.role = none → (mergeUpdated e u).role = e.role)
        ∧ (u.photo = none → (mergeUpdated e u).photo = e.photo)
        ∧ (u.isCheckedIn = none → (mergeUpdated e u).isCheckedIn = e.isCheckedIn)
        ∧ (mergeUpdated e u).name ≠ "") := by
  constructor
  · intro h
    simp only [applyOp, updateEmpGo_not_mem gen id u st.doc.employees st.ctr h]
  · intro l₁ e l₂ hsplit he h₁ h₂ hc
    refine ⟨?_, rfl, ?_, ?_, ?_, ?_, ?_, ?_⟩
    · simp only [applyOp, hsplit, updateEmpGo_found gen id u l₁ e l₂ st.ctr he h₁ h₂,
        normaliseEmployee_merged gen st.ctr e u hc]
      rfl
    · intro hu; simp [mergeUpdated, hu]
    · intro hu; simp [mergeUpdated, hu]
    · intro hu; simp [mergeUpdated, hu]
    · intro hu; simp [mergeUpdated, hu]
    · intro hu; simp [mergeUpdated, hu]
    · obtain ⟨-, -, -, hn2, -⟩ := canonical_spec hc
      cases hu : u.name with
      | none => simpa [mergeUpdated, hu] using hn2
      | some v =>
        simpa [mergeUpdated, hu] using
          trimmedOr_ne_empty v "Ukendt medarbejder" (by decide)

/-- Witness for C5 (amended): an unknown id is rejected with `NotFoundError`,
and blanking the role of the first seed employee succeeds. -/
theorem updateEmployee_amended_witness :
    applyOp gen0 true (Op.updateEmployee "nobody" updEmptyRole) st0
        = (Except.error Err.notFound, st0)
    ∧ applyOp gen0 true (Op.updateEmployee "amalie-korvig" updEmptyRole) st0 =
        (Except.ok (OpResult.employee (mergeUpdated amalie updEmptyRole)),
          { st0 with doc := { st0.doc with
              employees := [] ++ mergeUpdated amalie updEmptyRole :: seedRest } }) :=
  ⟨(updateEmployee_amended gen0 st0 "nobody" updEmptyRole).1 (by decide),
   ((updateEmployee_amended gen0 st0 "amalie-korvig" updEmptyRole).2
     [] amalie seedRest rfl rfl (by decide) (by decide) (by decide)).1⟩

/-- C3 counterexample: on this code `addEmployee({name:"", role:"X"})` does
not fail with a validation error — it succeeds, the blank name replaced by the
sentinel `"Ukendt medarbejder"` before the `!employee.name` check runs. -/
theorem addEmployee_blank_name_counterexample :
    (applyOp gen0 true (Op.addEmployee pEmptyName) st0).1 =
      Except.ok (OpResult.employee
        { id := "uuid-0", name := "Ukendt medarbejder", department := "Øvrige",
          role := "X", photo := "", isCheckedIn := false })
    ∧ (applyOp gen0 true (Op.addEmployee pEmptyName) st0).1
        ≠ Except.error Err.validation := by
  constructor
  · decide
  · decide

/-- C3 (amended): `addEmployee({name:"", role:"X"})` succeeds — the blank
name is replaced by the sentinel rather than rejected; `addEmployee` rejects
with `ValidationError` exactly when the normalised role is empty; and
`addEmployee({name:"A", role:"B"})` succeeds, the returned employee having
`isCheckedIn = false` and a freshly generated id, and being appended to (hence
appearing in) `getState().employees`. -/
theorem addEmployee_amended (gen : Nat → String) (st : StoreSt)
    (hg : uuidLike (gen st.ctr) = true) :
    applyOp gen true (Op.addEmployee pEmptyName) st =
        (Except.ok (OpResult.employee
          { id := gen st.ctr, name := "Ukendt medarbejder", department := "Øvrige",
            role := "X", photo := "", isCheckedIn := false }),
         { doc := { st.doc with employees := st.doc.employees ++
             [{ id := gen st.ctr, name := "Ukendt medarbejder", department := "Øvrige",
                role := "X", photo := "", isCheckedIn := false }] },
           ctr := st.ctr + 1 })
    ∧ (∀ p : RawEmployee,
        ((applyOp gen true (Op.addEmployee p) st).1 = Except.error Err.validation
          ↔ trimOrEmpty p.role = ""))
    ∧ applyOp gen true (Op.addEmployee pAB) st =
        (Except.ok (OpResult.employee
          { id := gen st.ctr, name := "A", department := "Øvrige",
            role := "B", photo := "", isCheckedIn := false }),
         { doc := { st.doc with employees := st.doc.employees ++
             [{ id := gen st.ctr, name := "A", department := "Øvrige",
                role := "B", photo := "", isCheckedIn := false }] },
           ctr := st.ctr + 1 })
    ∧ ({ id := gen st.ctr, name := "A", department := "Øvrige", role := "B",
         photo := "", isCheckedIn := false } : Employee)
        ∈ (getState ((applyOp gen true (Op.addEmployee pAB) st).2)).employees := by
  obtain ⟨h1, h2⟩ := uuidLike_spec hg
  have e1 : jsTrim "" = "" := rfl
  have e2 : jsTrim "X" = "X" := rfl
  have e3 : jsTrim "A" = "A" := rfl
  have e4 : jsTrim "B" = "B" := rfl
  have hAB : applyOp gen true (Op.addEmployee pAB) st =
      (Except.ok (OpResult.employee
        { id := gen st.ctr, name := "A", department := "Øvrige",
          role := "B", photo := "", isCheckedIn := false }),
       { doc := { st.doc with employees := st.doc.employees ++
           [{ id := gen st.ctr, name := "A", department := "Øvrige",
              role := "B", photo := "", isCheckedIn := false }] },
         ctr := st.ctr + 1 }) := by
    simp [applyOp, normaliseEmployee_some, pAB, trimmedOr, trimOrEmpty,
      JVal.truthy, e3, e4, h1, h2]
  refine ⟨?_, fun p => addEmployee_error_iff gen st p, hAB, ?_⟩
  · simp [applyOp, normaliseEmployee_some, pEmptyName, trimmedOr, trimOrEmpty,
      JVal.truthy, e1, e2, h1, h2]
  · rw [hAB]
    simp [getState]

/-- Witness for C3 (amended): the generator hypothesis holds of the concrete
generator, and `addEmployee({name:"A", role:"B"})` on the default store
appends the expected employee. -/
theorem addEmployee_amended_witness :
    uuidLike (gen0 st0.ctr) = true
    ∧ applyOp gen0 true (Op.addEmployee pAB) st0 =
        (Except.ok (OpResult.employee
          { id := gen0 st0.ctr, name := "A", department := "Øvrige",
            role := "B", photo := "", isCheckedIn := false }),
         { doc := { st0.doc with employees := st0.doc.employees ++
             [{ id := gen0 st0.ctr, name := "A", department := "Øvrige",
                role := "B", photo := "", isCheckedIn := false }] },
           ctr := st0.ctr + 1 }) :=
  ⟨by decide, (addEmployee_amended gen0 st0 (by decide)).2.2.1⟩

/-- C10: `setEmployeeStatus(id, isCheckedIn)` is a queued mutating operation
that fails with `NotFoundError` when no employee has the id (leaving the
document value unchanged), otherwise sets exactly that employee's
`isCheckedIn` field to the boolean coercion of the argument — every other
field of that employee, every other employee, the branding and the absences
unchanged — and no success is returned without the persistence write
succeeding. -/
theorem setEmployeeStatus_spec (gen : Nat → String) (st : StoreSt) (id : String) (v : JVal) :
    ((∀ e ∈ st.doc.employees, e.id ≠ id) →
        applyOp gen true (Op.setEmployeeStatus id v) st = (Except.error Err.notFound, st))
    ∧ (∀ l₁ e l₂, st.doc.employees = l₁ ++ e :: l₂ → e.id = id →
        (∀ x ∈ l₁, x.id ≠ id) → (∀ x ∈ l₂, x.id ≠ id) →
        applyOp gen true (Op.setEmployeeStatus id v) st =
          (Except.ok (OpResult.employee { e with isCheckedIn := v.truthy }),
            { st with doc := { st.doc with
                employees := l₁ ++ { e with isCheckedIn := v.truthy } :: l₂ } }))
    ∧ (∀ res, (applyOp gen false (Op.setEmployeeStatus id v) st).1 ≠ Except.ok res) := by
  refine ⟨?_, ?_, ?_⟩
  · intro h
    simp only [applyOp, setStatusGo_not_mem id v.truthy st.doc.employees h]
  · intro l₁ e l₂ hsplit he h₁ h₂
    simp only [applyOp, hsplit, setStatusGo_found id v.truthy l₁ e l₂ he h₁ h₂]
    rfl
  · intro res
    simp only [applyOp]
    cases hr : (setStatusGo id v.truthy st.doc.employees).2 with
    | none => simp [hr]
    | some x => simp [hr]

/-- Witness for C10: turning the checked-in first seed employee off succeeds
and rewrites only that flag; an unknown id is rejected with the document
untouched. -/
theorem setEmployeeStatus_spec_witness :
    applyOp gen0 true (Op.setEmployeeStatus "nobody" JVal.undef) st0
        = (Except.error Err.notFound, st0)
    ∧ applyOp gen0 true (Op.setEmployeeStatus "amalie-korvig" (JVal.jbool false)) st0 =
        (Except.ok (OpResult.employee { amalie with isCheckedIn := false }),
          { st0 with doc := { st0.doc with
              employees := [] ++ { amalie with isCheckedIn := false } :: seedRest } }) :=
  ⟨(setEmployeeStatus_spec gen0 st0 "nobody" JVal.undef).1 (by decide),
   (setEmployeeStatus_spec gen0 st0 "amalie-korvig" (JVal.jbool false)).2.1
     [] amalie seedRest rfl rfl (by decide) (by decide)⟩

/-- C7: `removeEmployee(id)` fails with `NotFoundError` when no employee has
the id, leaving the store exactly as it was; otherwise it removes that
employee, removes every absence whose `employeeId` equals the id (so no
remaining absence references it), and returns the removed record. -/
theorem removeEmployee_spec (gen : Nat → String) (st : StoreSt) (id : String) :
    ((∀ e ∈ st.doc.employees, e.id ≠ id) →
        applyOp gen true (Op.removeEmployee id) st = (Except.error Err.notFound, st))
    ∧ (∀ l₁ e l₂, st.doc.employees = l₁ ++ e :: l₂ → e.id = id →
        (∀ x ∈ l₁, x.id ≠ id) → (∀ x ∈ l₂, x.id ≠ id) →
        applyOp gen true (Op.removeEmployee id) st =
          (Except.ok (OpResult.employee e),
            { st with doc := { st.doc with
                employees := l₁ ++ l₂,
                absences := st.doc.absences.filter (fun a => a.employeeId ≠ id) } })
        ∧ ∀ a ∈ (getState ((applyOp gen true (Op.removeEmployee id) st).2)).absences,
            a.employeeId ≠ id) := by
  constructor
  · intro h
    simp only [applyOp, removeEmpGo_not_mem id st.doc.employees h]
  · intro l₁ e l₂ hsplit he h₁ h₂
    have heq : applyOp gen true (Op.removeEmployee id) st =
        (Except.ok (OpResult.employee e),
          { st with doc := { st.doc with
              employees := l₁ ++ l₂,
              absences := st.doc.absences.filter (fun a => a.employeeId ≠ id) } }) := by
      simp only [applyOp, hsplit, removeEmpGo_found id l₁ e l₂ he h₁ h₂]
      rfl
    refine ⟨heq, ?_⟩
    rw [heq]
    intro a ha
    simp only [getState, List.mem_filter, decide_eq_true_eq] at ha
    exact ha.2

/-- Witness for C7: removing the first seed employee from a store that also
holds an absence for it returns the record, drops the employee and cascades
the absence away; an unknown id is rejected unchanged. -/
theorem removeEmployee_spec_witness :
    applyOp gen0 true (Op.removeEmployee "nobody") stWithAbs
        = (Except.error Err.notFound, stWithAbs)
    ∧ applyOp gen0 true (Op.removeEmployee "amalie-korvig") stWithAbs =
        (Except.ok (OpResult.employee amalie),
          { stWithAbs with doc := { stWithAbs.doc with
              employees := [] ++ seedRest,
              absences := stWithAbs.doc.absences.filter
                (fun a => a.employeeId ≠ "amalie-korvig") } }) :=
  ⟨(removeEmployee_spec gen0 stWithAbs "nobody").1 (by decide),
   ((removeEmployee_spec gen0 stWithAbs "amalie-korvig").2
     [] amalie seedRest rfl rfl (by decide) (by decide)).1⟩

end Registrering
